import Mathlib

/-!
Verification of the SchoolTool persistence helpers (src/schooltool/db.py).

The embedding models the three container classes of the module:

* `PersistentKeysDict` (the spec's IdentityKeyedStore): a mapping whose keys
  are persistent objects, stored either in the transient partition
  `tmpdata` (Python `self._tmpdata`, keyed by the memory identity `id(key)`)
  or in the durable partition `data` (Python `self._data`, keyed by the
  object's `_p_oid`).
* `PersistentKeysSet` (the spec's IdentityKeyedSet): `PersistentKeysDict`
  with the sentinel value `Unit`.
* `PersistentPairKeysDict` (the spec's PairKeyedStore): an outer
  `PersistentKeysDict` whose values are references into a modelled heap of
  mutable inner dictionaries, reflecting that the Python code stores plain
  `dict` objects (mutable, aliasable) as the outer values.

Python dictionaries are modelled as association lists (`alGet`/`alPut`/
`alDel`), with `alPut` replacing in place and `alDel` removing the entry.
The list order stands for the dictionary's storage order; membership,
values and lengths are faithful, but for a Python 2 dict the actual
iteration order is hash-table order, not insertion order — see
`py2IntDictIterKeys` and the treatment of `keys()`.
The ZODB connection (`self._p_jar`) is modelled by `World`: a map from a
key object's memory identity to its assigned `_p_oid`, together with the
counter used to hand out fresh oids on `jar.add`.  Key objects are mutable
in Python (`jar.add(key)` sets `key._p_oid` in place), so a key is modelled
by its memory identity `kid` plus a capability flag, and its current
`_p_oid` is read from the `World` at each call.

Errors: Python `TypeError` from `checkKey` is `Err.invalidKey`, `KeyError`
is `Err.keyNotFound`, the `assert jar is not None` failure in
`__getstate__` is `Err.illegalState`.  Mutating operations return the
resulting state paired with `Option Err`, so that the state accompanying
an exception is explicit.
-/

/-- Association-list lookup: first entry with the given key, as in a Python
dictionary read. -/
def alGet {α : Type u} : List (Nat × α) → Nat → Option α
  | [], _ => none
  | (k', v) :: t, k => if k' = k then some v else alGet t k

/-- Association-list write: replace the value at an existing key in place,
else append, as in a Python dictionary assignment. -/
def alPut {α : Type u} : List (Nat × α) → Nat → α → List (Nat × α)
  | [], k, v => [(k, v)]
  | (k', v') :: t, k, v => if k' = k then (k, v) :: t else (k', v') :: alPut t k v

/-- Association-list delete: remove the entry with the given key, as in a
Python `del d[k]`. -/
def alDel {α : Type u} : List (Nat × α) → Nat → List (Nat × α)
  | [], _ => []
  | (k', v') :: t, k => if k' = k then t else (k', v') :: alDel t k

/-- The keys of an association list, in order. -/
def keysOf {α : Type u} (l : List (Nat × α)) : List Nat := l.map Prod.fst

/-- The values of an association list, in order. -/
def valsOf {α : Type u} (l : List (Nat × α)) : List α := l.map Prod.snd

/-- A persistent key object as seen at a call site: its memory identity
(Python `id(key)`) and whether it has a `_p_oid` slot at all (the
`checkKey` capability test `hasattr(key, '_p_oid')`). -/
structure PKey where
  kid : Nat
  capable : Bool
deriving DecidableEq, Repr

/-- The ZODB connection: which key objects currently carry a `_p_oid`
(`attached`, a map from memory identity to oid) and the next oid that
`jar.add` would hand out. -/
structure World where
  attached : List (Nat × Nat)
  nextOid : Nat
deriving DecidableEq, Repr

/-- The current `_p_oid` of the key object with memory identity `kid`:
`none` models `key._p_oid is None`. -/
def poidOf (w : World) (kid : Nat) : Option Nat := alGet w.attached kid

/-- Reverse lookup modelling `jar.get(oid)`: the key object whose `_p_oid`
is `oid`, if any. -/
def revLookup : List (Nat × Nat) → Nat → Option Nat
  | [], _ => none
  | (kid, oid') :: t, oid => if oid' = oid then some kid else revLookup t oid

/-- The object `jar.get(oid)` resolves to, identified by its memory
identity. -/
def resolveOid (w : World) (oid : Nat) : Option Nat := revLookup w.attached oid

/-- `jar.add(key)`: assign the next fresh oid to an unattached key. -/
def jarAdd (w : World) (kid : Nat) : World :=
  { attached := w.attached ++ [(kid, w.nextOid)], nextOid := w.nextOid + 1 }

/-- Well-formedness of the connection: assigned oids are below the fresh
counter, each object has at most one oid, and distinct objects have
distinct oids. -/
def Wgood (w : World) : Prop :=
  (∀ e ∈ w.attached, e.2 < w.nextOid) ∧
  (keysOf w.attached).Nodup ∧
  (∀ e₁ ∈ w.attached, ∀ e₂ ∈ w.attached, e₁.2 = e₂.2 → e₁.1 = e₂.1)

instance (w : World) : Decidable (Wgood w) := by
  unfold Wgood
  infer_instance

/-- The errors the module raises: `TypeError` from `checkKey`, `KeyError`
on an absent key, and the `assert jar is not None` failure in
`__getstate__`. -/
inductive Err where
  | invalidKey
  | keyNotFound
  | illegalState
deriving DecidableEq, Repr

deriving instance DecidableEq for Except

/-- State of a `PersistentKeysDict`: the transient partition `_tmpdata`
(memory identity to value), the durable partition `_data` (oid to value),
and whether the container itself is attached to a connection
(`self._p_jar is not None`). -/
structure PersistentKeysDict (V : Type u) where
  tmpdata : List (Nat × V)
  data : List (Nat × V)
  hasJar : Bool
deriving DecidableEq, Repr

namespace PersistentKeysDict

/-- `PersistentKeysDict.__setitem__`: after `checkKey`, store in `_tmpdata`
when `key._p_oid is None or self._p_jar is None`, else in `_data` under
`key._p_oid`. -/
def setitem (w : World) (d : PersistentKeysDict V) (k : PKey) (v : V) :
    PersistentKeysDict V × Option Err :=
  if k.capable then
    match poidOf w k.kid with
    | none => ({ d with tmpdata := alPut d.tmpdata k.kid v }, none)
    | some oid =>
      if d.hasJar then ({ d with data := alPut d.data oid v }, none)
      else ({ d with tmpdata := alPut d.tmpdata k.kid v }, none)
  else (d, some .invalidKey)

/-- `PersistentKeysDict.__getitem__`: after `checkKey`, read `_tmpdata`
under `id(key)` first, else `_data` under `key._p_oid`; `KeyError` becomes
`Err.keyNotFound`. -/
def getitem (w : World) (d : PersistentKeysDict V) (k : PKey) : Except Err V :=
  if k.capable then
    match alGet d.tmpdata k.kid with
    | some v => .ok v
    | none =>
      match poidOf w k.kid with
      | none => .error .keyNotFound
      | some oid =>
        match alGet d.data oid with
        | some v => .ok v
        | none => .error .keyNotFound
  else .error .invalidKey

/-- `PersistentKeysDict.__delitem__`: same lookup order as `__getitem__`,
removing the entry found. -/
def delitem (w : World) (d : PersistentKeysDict V) (k : PKey) :
    PersistentKeysDict V × Option Err :=
  if k.capable then
    match alGet d.tmpdata k.kid with
    | some _ => ({ d with tmpdata := alDel d.tmpdata k.kid }, none)
    | none =>
      match poidOf w k.kid with
      | none => (d, some .keyNotFound)
      | some oid =>
        match alGet d.data oid with
        | some _ => ({ d with data := alDel d.data oid }, none)
        | none => (d, some .keyNotFound)
  else (d, some .invalidKey)

/-- `PersistentKeysDict.__contains__`: after `checkKey`,
`id(key) in self._tmpdata or key._p_oid in self._data`. -/
def containsD (w : World) (d : PersistentKeysDict V) (k : PKey) : Except Err Bool :=
  if k.capable then
    .ok ((alGet d.tmpdata k.kid).isSome ||
      (match poidOf w k.kid with
       | none => false
       | some oid => (alGet d.data oid).isSome))
  else .error .invalidKey

/-- `PersistentKeysDict.keys`: the list comprehension
`[jar.get(key) for key in self._data] + [key for key, value in
self._tmpdata.itervalues()]`, each element being the key object it yields
(`none` when the connection cannot resolve an oid).  The staged segment
follows the model's storage order of `_tmpdata`; the real Python 2 dict
iterates in hash-table order, which is not insertion order
(see `py2IntDictIterKeys`).  The result is an eager list, not a lazy
sequence — the source's own comment marks laziness as an unimplemented
optimization. -/
def keysList (w : World) (d : PersistentKeysDict V) : List (Option Nat) :=
  d.data.map (fun e => resolveOid w e.1) ++ d.tmpdata.map (fun e => some e.1)

/-- The sequence yielded by the generator `PersistentKeysDict.__iter__`:
first `jar.get(key)` for each key of `_data`, then the staged key objects
in the same storage order as `keys()` (with the same hash-table-order
caveat for the staged segment). -/
def iterKeys (w : World) (d : PersistentKeysDict V) : List (Option Nat) :=
  iterData w d.data ++ iterTmp d.tmpdata
where
  iterData : World → List (Nat × V) → List (Option Nat)
    | _, [] => []
    | w, (oid, _) :: t => resolveOid w oid :: iterData w t
  iterTmp : List (Nat × V) → List (Option Nat)
    | [] => []
    | (kid, _) :: t => some kid :: iterTmp t

/-- `PersistentKeysDict.__len__`: `len(self._data) + len(self._tmpdata)`. -/
def lenD (d : PersistentKeysDict V) : Nat := d.data.length + d.tmpdata.length

/-- The loop body of `PersistentKeysDict.__getstate__`: for each staged
`(key, value)`, `jar.add(key)` when `key._p_oid is None`, then
`data[key._p_oid] = value`. -/
def flushCore (w : World) : List (Nat × V) → List (Nat × V) → World × List (Nat × V)
  | [], data => (w, data)
  | (kid, v) :: rest, data =>
    match poidOf w kid with
    | some oid => flushCore w rest (alPut data oid v)
    | none => flushCore (jarAdd w kid) rest (alPut data w.nextOid v)

/-- `PersistentKeysDict.__getstate__`: asserts the container is attached
(`assert jar is not None`, modelled as `Err.illegalState`), migrates every
staged entry into `_data`, and clears `_tmpdata`. -/
def getstate (w : World) (d : PersistentKeysDict V) :
    (World × PersistentKeysDict V) × Option Err :=
  if d.hasJar then
    match flushCore w d.tmpdata d.data with
    | (w', data') => ((w', { tmpdata := [], data := data', hasJar := d.hasJar }), none)
  else ((w, d), some .illegalState)

end PersistentKeysDict

/-- Iteration order of a CPython 2 dictionary over distinct nonnegative
integer keys that occupy distinct hash slots: with open addressing and
`hash(int) = int`, a key is stored at slot `key mod tableSize`, and
iteration scans the slots in ascending order.  `_tmpdata` is keyed by
`id(key)` (an integer), so this — not insertion order — is the order in
which its `itervalues()` yields the staged entries. -/
def py2IntDictIterKeys (tableSize : Nat) (insertedKeys : List Nat) : List Nat :=
  (List.range tableSize).filterMap
    (fun slot => insertedKeys.find? (fun k => k % tableSize == slot))

/-- State of a `PersistentKeysSet`: its backing `PersistentKeysDict` with
the sentinel value `None` modelled as `Unit`. -/
abbrev PersistentKeysSet : Type := PersistentKeysDict Unit

namespace PersistentKeysSet

/-- `PersistentKeysSet.add`: `if item not in self._data:
self._data[item] = None`. -/
def addS (w : World) (d : PersistentKeysSet) (item : PKey) :
    PersistentKeysSet × Option Err :=
  match PersistentKeysDict.containsD w d item with
  | .error e => (d, some e)
  | .ok true => (d, none)
  | .ok false => PersistentKeysDict.setitem w d item ()

/-- `PersistentKeysSet.remove`: `del self._data[item]`. -/
def removeS (w : World) (d : PersistentKeysSet) (item : PKey) :
    PersistentKeysSet × Option Err :=
  PersistentKeysDict.delitem w d item

/-- `PersistentKeysSet.__len__`: `len(self._data)`. -/
def lenS (d : PersistentKeysSet) : Nat := PersistentKeysDict.lenD d

end PersistentKeysSet

/-- State of a `PersistentPairKeysDict`: the outer `PersistentKeysDict`
whose stored values are references (`outer`) into the heap of inner Python
`dict` objects (`heap`, mapping each reference to the association list of
`hashable -> value` entries), plus the allocator for fresh dict objects.
The heap makes the aliasing of the mutable inner dictionaries explicit. -/
structure PersistentPairKeysDict (V : Type u) where
  outer : PersistentKeysDict Nat
  heap : List (Nat × List (Nat × V))
  nextRef : Nat
deriving DecidableEq, Repr

namespace PersistentPairKeysDict

open PersistentKeysDict

/-- The dict references currently stored as outer values, staging first. -/
def storedRefs (st : PersistentPairKeysDict V) : List Nat :=
  valsOf st.outer.tmpdata ++ valsOf st.outer.data

/-- `PersistentPairKeysDict.__setitem__`: create `self._data[persistent] =
dict()` when the primary is absent, fetch `d = self._data[persistent]`,
mutate `d[hashable] = value` in place on the heap, and reassign
`self._data[persistent] = d`. -/
def pairSet (w : World) (st : PersistentPairKeysDict V) (p : PKey) (s : Nat) (v : V) :
    PersistentPairKeysDict V × Option Err :=
  match containsD w st.outer p with
  | .error e => (st, some e)
  | .ok c =>
    let st₁ : PersistentPairKeysDict V :=
      if c then st
      else { outer := (setitem w st.outer p st.nextRef).fst,
             heap := alPut st.heap st.nextRef [],
             nextRef := st.nextRef + 1 }
    match getitem w st₁.outer p with
    | .error e => (st₁, some e)
    | .ok dref =>
      let dct := (alGet st₁.heap dref).getD []
      ({ st₁ with
          heap := alPut st₁.heap dref (alPut dct s v),
          outer := (setitem w st₁.outer p dref).fst }, none)

/-- `PersistentPairKeysDict.__getitem__`:
`return self._data[persistent][hashable]`. -/
def pairGet (w : World) (st : PersistentPairKeysDict V) (p : PKey) (s : Nat) :
    Except Err V :=
  match getitem w st.outer p with
  | .error e => .error e
  | .ok dref =>
    match alGet st.heap dref with
    | none => .error .keyNotFound
    | some dct =>
      match alGet dct s with
      | some v => .ok v
      | none => .error .keyNotFound

/-- `PersistentPairKeysDict.__delitem__`: fetch the inner dict, `del
d[hashable]` in place, then either reassign it (still non-empty) or delete
the primary from the outer store. -/
def pairDel (w : World) (st : PersistentPairKeysDict V) (p : PKey) (s : Nat) :
    PersistentPairKeysDict V × Option Err :=
  match getitem w st.outer p with
  | .error e => (st, some e)
  | .ok dref =>
    match alGet st.heap dref with
    | none => (st, some .keyNotFound)
    | some dct =>
      match alGet dct s with
      | none => (st, some .keyNotFound)
      | some _ =>
        let dct' := alDel dct s
        let heap' := alPut st.heap dref dct'
        if dct'.isEmpty then
          match delitem w st.outer p with
          | (o', none) => ({ outer := o', heap := heap', nextRef := st.nextRef }, none)
          | (o', some e) => ({ outer := o', heap := heap', nextRef := st.nextRef }, some e)
        else
          ({ outer := (setitem w st.outer p dref).fst, heap := heap',
             nextRef := st.nextRef }, none)

/-- The primary keys yielded by `PersistentPairKeysDict.__iter__`, which
drives `for persistent in data` over the outer store's iterator. -/
def pairPrimaries (w : World) (st : PersistentPairKeysDict V) : List (Option Nat) :=
  iterKeys w st.outer

/-- `PersistentPairKeysDict.__len__`: the sum of the inner dict sizes over
the outer iteration. -/
def pairLen (st : PersistentPairKeysDict V) : Nat :=
  (storedRefs st).foldl (fun acc r => acc + ((alGet st.heap r).getD []).length) 0

end PersistentPairKeysDict

/-- States of a `PersistentPairKeysDict` reachable from a fresh container
through successful `__setitem__`/`__delitem__` calls, between which key
objects may become attached externally (the connection is shared) — the
world evolves by `jarAdd` steps. -/
inductive PReach : World → PersistentPairKeysDict Nat → Prop where
  | init :
      PReach ⟨[], 0⟩ ⟨⟨[], [], true⟩, [], 0⟩
  | attach (w : World) (st : PersistentPairKeysDict Nat) (kid : Nat) :
      PReach w st → poidOf w kid = none → PReach (jarAdd w kid) st
  | setp (w : World) (st st' : PersistentPairKeysDict Nat) (p : PKey) (s : Nat) (v : Nat) :
      PReach w st → PersistentPairKeysDict.pairSet w st p s v = (st', none) →
      PReach w st'
  | delp (w : World) (st st' : PersistentPairKeysDict Nat) (p : PKey) (s : Nat) :
      PReach w st → PersistentPairKeysDict.pairDel w st p s = (st', none) →
      PReach w st'

/-- States of a `PersistentPairKeysDict` reachable from an empty container
through successful `__setitem__`/`__delitem__` calls under one fixed
connection state (no key or container changes attachment in between). -/
inductive FReach (w : World) : PersistentPairKeysDict V → Prop where
  | init (b : Bool) : FReach w ⟨⟨[], [], b⟩, [], 0⟩
  | setp (st st' : PersistentPairKeysDict V) (p : PKey) (s : Nat) (v : V) :
      FReach w st → PersistentPairKeysDict.pairSet w st p s v = (st', none) →
      FReach w st'
  | delp (st st' : PersistentPairKeysDict V) (p : PKey) (s : Nat) :
      FReach w st → PersistentPairKeysDict.pairDel w st p s = (st', none) →
      FReach w st'

/-! ### Association-list lemmas -/

theorem keysOf_nil {α : Type u} : keysOf ([] : List (Nat × α)) = [] := rfl

theorem keysOf_cons {α : Type u} (k : Nat) (v : α) (t : List (Nat × α)) :
    keysOf ((k, v) :: t) = k :: keysOf t := rfl

theorem valsOf_nil {α : Type u} : valsOf ([] : List (Nat × α)) = [] := rfl

theorem valsOf_cons {α : Type u} (k : Nat) (v : α) (t : List (Nat × α)) :
    valsOf ((k, v) :: t) = v :: valsOf t := rfl

theorem keysOf_append {α : Type u} (l₁ l₂ : List (Nat × α)) :
    keysOf (l₁ ++ l₂) = keysOf l₁ ++ keysOf l₂ := List.map_append _ _ _

theorem valsOf_append {α : Type u} (l₁ l₂ : List (Nat × α)) :
    valsOf (l₁ ++ l₂) = valsOf l₁ ++ valsOf l₂ := List.map_append _ _ _

theorem alGet_alPut_self {α : Type u} (l : List (Nat × α)) (k : Nat) (v : α) :
    alGet (alPut l k v) k = some v := by
  induction l with
  | nil => simp [alPut, alGet]
  | cons e t ih =>
    obtain ⟨k', v'⟩ := e
    by_cases h : k' = k <;> simp [alPut, alGet, h, ih]

theorem alGet_alPut_ne {α : Type u} (l : List (Nat × α)) (k k' : Nat) (v : α)
    (h : k' ≠ k) : alGet (alPut l k v) k' = alGet l k' := by
  induction l with
  | nil => simp [alPut, alGet, Ne.symm h]
  | cons e t ih =>
    obtain ⟨k₀, v₀⟩ := e
    by_cases h₀ : k₀ = k
    · subst h₀
      simp [alPut, alGet, Ne.symm h, h]
    · simp only [alPut, if_neg h₀]
      by_cases h₁ : k₀ = k' <;> simp [alGet, h₁, ih]

theorem alGet_eq_none_iff {α : Type u} (l : List (Nat × α)) (k : Nat) :
    alGet l k = none ↔ k ∉ keysOf l := by
  induction l with
  | nil => simp [alGet, keysOf_nil]
  | cons e t ih =>
    obtain ⟨k', v'⟩ := e
    by_cases h : k' = k
    · subst h
      simp [alGet, keysOf_cons]
    · simp [alGet, keysOf_cons, h, ih, Ne.symm h]

theorem mem_keysOf_of_alGet {α : Type u} {l : List (Nat × α)} {k : Nat} {v : α}
    (h : alGet l k = some v) : k ∈ keysOf l := by
  by_contra hk
  rw [← alGet_eq_none_iff, h] at hk
  exact Option.noConfusion hk

theorem alGet_isSome_of_mem_keysOf {α : Type u} {l : List (Nat × α)} {k : Nat}
    (h : k ∈ keysOf l) : (alGet l k).isSome := by
  cases hg : alGet l k with
  | none => exact absurd ((alGet_eq_none_iff l k).mp hg) (by simp [h])
  | some v => rfl

theorem mem_of_alGet {α : Type u} {l : List (Nat × α)} {k : Nat} {v : α}
    (h : alGet l k = some v) : (k, v) ∈ l := by
  induction l with
  | nil => simp [alGet] at h
  | cons e t ih =>
    obtain ⟨k', v'⟩ := e
    by_cases hk : k' = k
    · subst hk
      simp [alGet] at h
      simp [h]
    · simp [alGet, hk] at h
      exact List.mem_cons_of_mem _ (ih h)

theorem alPut_of_not_mem {α : Type u} {l : List (Nat × α)} {k : Nat} (v : α)
    (h : k ∉ keysOf l) : alPut l k v = l ++ [(k, v)] := by
  induction l with
  | nil => simp [alPut]
  | cons e t ih =>
    obtain ⟨k', v'⟩ := e
    rw [keysOf_cons] at h
    simp only [List.mem_cons] at h
    push_neg at h
    simp [alPut, Ne.symm h.1, ih h.2]

theorem alPut_eq_self {α : Type u} {l : List (Nat × α)} {k : Nat} {v : α}
    (h : alGet l k = some v) : alPut l k v = l := by
  induction l with
  | nil => simp [alGet] at h
  | cons e t ih =>
    obtain ⟨k', v'⟩ := e
    by_cases hk : k' = k
    · subst hk
      simp [alGet] at h
      simp [alPut, h]
    · simp [alGet, hk] at h
      simp [alPut, hk, ih h]

theorem mem_keysOf_alPut {α : Type u} (l : List (Nat × α)) (k k' : Nat) (v : α) :
    k' ∈ keysOf (alPut l k v) ↔ k' = k ∨ k' ∈ keysOf l := by
  induction l with
  | nil => simp [alPut, keysOf_cons, keysOf_nil]
  | cons e t ih =>
    obtain ⟨k₀, v₀⟩ := e
    by_cases h : k₀ = k
    · subst h
      have hpu : alPut ((k₀, v₀) :: t) k₀ v = (k₀, v) :: t := by simp [alPut]
      rw [hpu, keysOf_cons, keysOf_cons]
      simp only [List.mem_cons]
      tauto
    · have hpu : alPut ((k₀, v₀) :: t) k v = (k₀, v₀) :: alPut t k v := by
        simp [alPut, h]
      rw [hpu, keysOf_cons, keysOf_cons]
      simp only [List.mem_cons, ih]
      tauto

theorem keysOf_alPut_of_mem {α : Type u} {l : List (Nat × α)} {k : Nat} (v : α)
    (h : k ∈ keysOf l) : keysOf (alPut l k v) = keysOf l := by
  induction l with
  | nil => simp [keysOf_nil] at h
  | cons e t ih =>
    obtain ⟨k₀, v₀⟩ := e
    by_cases hk : k₀ = k
    · subst hk
      simp [alPut, keysOf_cons]
    · rw [keysOf_cons] at h
      rcases List.mem_cons.mp h with h | h
      · exact absurd h.symm hk
      · simp [alPut, hk, keysOf_cons, ih h]

theorem length_alPut_of_mem {α : Type u} {l : List (Nat × α)} {k : Nat} (v : α)
    (h : k ∈ keysOf l) : (alPut l k v).length = l.length := by
  induction l with
  | nil => simp [keysOf_nil] at h
  | cons e t ih =>
    obtain ⟨k₀, v₀⟩ := e
    by_cases hk : k₀ = k
    · simp [alPut, hk]
    · rw [keysOf_cons] at h
      rcases List.mem_cons.mp h with h | h
      · exact absurd h.symm hk
      · simp [alPut, hk, ih h]

theorem nodup_keysOf_alPut {α : Type u} {l : List (Nat × α)} {k : Nat} (v : α)
    (h : (keysOf l).Nodup) : (keysOf (alPut l k v)).Nodup := by
  by_cases hk : k ∈ keysOf l
  · rw [keysOf_alPut_of_mem v hk]
    exact h
  · rw [alPut_of_not_mem v hk, keysOf_append]
    exact List.Nodup.append h (by simp [keysOf_cons, keysOf_nil])
      (by simpa [keysOf_cons, keysOf_nil, List.disjoint_singleton] using hk)

theorem alDel_sublist {α : Type u} (l : List (Nat × α)) (k : Nat) :
    (alDel l k).Sublist l := by
  induction l with
  | nil => simp [alDel]
  | cons e t ih =>
    obtain ⟨k', v'⟩ := e
    by_cases h : k' = k
    · simp [alDel, h]
    · simp only [alDel, if_neg h]
      exact ih.cons₂ _

theorem alGet_decomp {α : Type u} {l : List (Nat × α)} {k : Nat} {v : α}
    (h : alGet l k = some v) :
    ∃ l₁ l₂, l = l₁ ++ (k, v) :: l₂ ∧ k ∉ keysOf l₁ ∧ alDel l k = l₁ ++ l₂ := by
  induction l with
  | nil => simp [alGet] at h
  | cons e t ih =>
    obtain ⟨k', v'⟩ := e
    by_cases hk : k' = k
    · subst hk
      simp [alGet] at h
      subst h
      exact ⟨[], t, by simp [alDel, keysOf_nil]⟩
    · simp [alGet, hk] at h
      obtain ⟨l₁, l₂, hl, hk₁, hd⟩ := ih h
      refine ⟨(k', v') :: l₁, l₂, by simp [hl], ?_, ?_⟩
      · simp [keysOf_cons, hk₁, Ne.symm hk]
      · simp [alDel, hk, hd]

theorem alGet_alDel_ne {α : Type u} (l : List (Nat × α)) (k k' : Nat)
    (h : k' ≠ k) : alGet (alDel l k) k' = alGet l k' := by
  induction l with
  | nil => simp [alDel]
  | cons e t ih =>
    obtain ⟨k₀, v₀⟩ := e
    by_cases h₀ : k₀ = k
    · subst h₀
      simp [alDel, alGet, Ne.symm h]
    · simp only [alDel, if_neg h₀]
      by_cases h₁ : k₀ = k' <;> simp [alGet, h₁, ih]

theorem mem_keysOf_alDel {α : Type u} {l : List (Nat × α)} {k k' : Nat}
    (hnd : (keysOf l).Nodup) :
    k' ∈ keysOf (alDel l k) ↔ k' ∈ keysOf l ∧ k' ≠ k := by
  induction l with
  | nil => simp [alDel, keysOf_nil]
  | cons e t ih =>
    obtain ⟨k₀, v₀⟩ := e
    rw [keysOf_cons] at hnd
    have hnd' := hnd.of_cons
    have hk₀ : k₀ ∉ keysOf t := (List.nodup_cons.mp hnd).1
    by_cases h₀ : k₀ = k
    · subst h₀
      simp only [alDel, if_pos rfl, keysOf_cons, List.mem_cons]
      constructor
      · intro hm
        exact ⟨Or.inr hm, fun he => hk₀ (he ▸ hm)⟩
      · rintro ⟨hm | hm, hne⟩
        · exact absurd hm hne
        · exact hm
    · simp only [alDel, if_neg h₀, keysOf_cons, List.mem_cons, ih hnd']
      constructor
      · rintro (he | ⟨hm, hne⟩)
        · exact ⟨Or.inl he, by omega⟩
        · exact ⟨Or.inr hm, hne⟩
      · rintro ⟨he | hm, hne⟩
        · exact Or.inl he
        · exact Or.inr ⟨hm, hne⟩

theorem length_alDel_of_mem {α : Type u} {l : List (Nat × α)} {k : Nat}
    (h : k ∈ keysOf l) : (alDel l k).length + 1 = l.length := by
  induction l with
  | nil => simp [keysOf_nil] at h
  | cons e t ih =>
    obtain ⟨k₀, v₀⟩ := e
    by_cases hk : k₀ = k
    · simp [alDel, hk]
    · rw [keysOf_cons] at h
      rcases List.mem_cons.mp h with h | h
      · exact absurd h.symm hk
      · simp [alDel, hk, ih h]

theorem nodup_keysOf_alDel {α : Type u} {l : List (Nat × α)} (k : Nat)
    (h : (keysOf l).Nodup) : (keysOf (alDel l k)).Nodup := by
  have hs : (keysOf (alDel l k)).Sublist (keysOf l) := (alDel_sublist l k).map _
  exact hs.nodup h

theorem alGet_of_mem_nodup {α : Type u} {l : List (Nat × α)} {k : Nat} {v : α}
    (hnd : (keysOf l).Nodup) (h : (k, v) ∈ l) : alGet l k = some v := by
  induction l with
  | nil => simp at h
  | cons e t ih =>
    obtain ⟨k₀, v₀⟩ := e
    rw [keysOf_cons] at hnd
    rcases List.mem_cons.mp h with he | hm
    · injection he with he₁ he₂
      simp [alGet, he₁, he₂]
    · have hk₀ : k₀ ≠ k := by
        intro hc
        subst hc
        exact (List.nodup_cons.mp hnd).1 (List.mem_map_of_mem Prod.fst hm)
      simp [alGet, hk₀, ih hnd.of_cons hm]

theorem alGet_append_left {α : Type u} {l : List (Nat × α)} (l₂ : List (Nat × α))
    {k : Nat} {v : α} (h : alGet l k = some v) : alGet (l ++ l₂) k = some v := by
  induction l with
  | nil => simp [alGet] at h
  | cons e t ih =>
    obtain ⟨k₀, v₀⟩ := e
    by_cases hk : k₀ = k
    · simp [alGet, hk] at h ⊢
      exact h
    · simp [alGet, hk] at h ⊢
      exact ih h

theorem alGet_append_right_of_not_mem {α : Type u} {l : List (Nat × α)}
    (l₂ : List (Nat × α)) {k : Nat} (h : k ∉ keysOf l) :
    alGet (l ++ l₂) k = alGet l₂ k := by
  induction l with
  | nil => simp
  | cons e t ih =>
    obtain ⟨k₀, v₀⟩ := e
    rw [keysOf_cons] at h
    simp only [List.mem_cons] at h
    push_neg at h
    simp [alGet, Ne.symm h.1, ih h.2]

/-! ### World lemmas -/

theorem poidOf_of_mem_attached {w : World} {kid oid : Nat}
    (hnd : (keysOf w.attached).Nodup) (h : (kid, oid) ∈ w.attached) :
    poidOf w kid = some oid := alGet_of_mem_nodup hnd h

theorem mem_attached_of_revLookup {l : List (Nat × Nat)} {oid kid : Nat}
    (h : revLookup l oid = some kid) : (kid, oid) ∈ l := by
  induction l with
  | nil => simp [revLookup] at h
  | cons e t ih =>
    obtain ⟨k₀, o₀⟩ := e
    by_cases ho : o₀ = oid
    · subst ho
      simp [revLookup] at h
      simp [h]
    · simp [revLookup, ho] at h
      exact List.mem_cons_of_mem _ (ih h)

theorem Wgood_jarAdd {w : World} {kid : Nat} (hw : Wgood w)
    (h : poidOf w kid = none) : Wgood (jarAdd w kid) := by
  obtain ⟨hb, hnd, hinj⟩ := hw
  have hkid : kid ∉ keysOf w.attached := (alGet_eq_none_iff _ _).mp h
  refine ⟨?_, ?_, ?_⟩
  · intro e he
    rcases (by simpa [jarAdd] using he : e ∈ w.attached ∨ e = (kid, w.nextOid)) with
      he' | he'
    · exact Nat.lt_succ_of_lt (hb e he')
    · rw [he']
      simp [jarAdd]
  · show (keysOf (w.attached ++ [(kid, w.nextOid)])).Nodup
    rw [keysOf_append]
    exact List.Nodup.append hnd (by simp [keysOf_cons, keysOf_nil])
      (by simpa [keysOf_cons, keysOf_nil, List.disjoint_singleton] using hkid)
  · intro e₁ he₁ e₂ he₂ heq
    rcases (by simpa [jarAdd] using he₁ : e₁ ∈ w.attached ∨ e₁ = (kid, w.nextOid)) with
      h₁ | h₁ <;>
      rcases (by simpa [jarAdd] using he₂ : e₂ ∈ w.attached ∨ e₂ = (kid, w.nextOid)) with
        h₂ | h₂
    · exact hinj e₁ h₁ e₂ h₂ heq
    · have hb₁ := hb e₁ h₁
      rw [h₂] at heq
      omega
    · have hb₂ := hb e₂ h₂
      rw [h₁] at heq
      omega
    · rw [h₁, h₂]

theorem poidOf_jarAdd_self {w : World} {kid : Nat} (h : poidOf w kid = none) :
    poidOf (jarAdd w kid) kid = some w.nextOid := by
  have hkid : kid ∉ keysOf w.attached := (alGet_eq_none_iff _ _).mp h
  show alGet (w.attached ++ [(kid, w.nextOid)]) kid = some w.nextOid
  rw [alGet_append_right_of_not_mem _ hkid]
  simp [alGet]

theorem poidOf_jarAdd_mono {w : World} {kid k oid : Nat}
    (h : poidOf w k = some oid) : poidOf (jarAdd w kid) k = some oid :=
  alGet_append_left _ h

/-! ### Operational lemmas for PersistentKeysDict -/

namespace PersistentKeysDict

/-- The branch condition of `__setitem__` (and the residence rule of the
staging partition): `key._p_oid is None or self._p_jar is None`. -/
def stagingCond (w : World) (d : PersistentKeysDict V) (kid : Nat) : Prop :=
  poidOf w kid = none ∨ d.hasJar = false

instance (w : World) (d : PersistentKeysDict V) (kid : Nat) :
    Decidable (stagingCond w d kid) := by
  unfold stagingCond
  infer_instance

/-- Well-formedness of a container state: every staged key satisfies the
staging condition, and the durable partition is empty while the container
is unattached. -/
def WF (w : World) (d : PersistentKeysDict V) : Prop :=
  (∀ kid ∈ keysOf d.tmpdata, stagingCond w d kid) ∧
  (d.hasJar = true ∨ d.data = [])

instance {V : Type u} [DecidableEq V] (w : World) (d : PersistentKeysDict V) :
    Decidable (WF w d) := by
  unfold WF
  infer_instance

theorem setitem_staging {w : World} {d : PersistentKeysDict V} {k : PKey} (v : V)
    (hc : k.capable = true) (hs : stagingCond w d k.kid) :
    setitem w d k v = ({ d with tmpdata := alPut d.tmpdata k.kid v }, none) := by
  rcases hs with hs | hs
  · simp [setitem, hc, hs]
  · unfold setitem
    rw [if_pos hc]
    cases hp : poidOf w k.kid <;> simp [hs]

theorem setitem_persisted {w : World} {d : PersistentKeysDict V} {k : PKey} {oid : Nat}
    (v : V) (hc : k.capable = true) (hp : poidOf w k.kid = some oid)
    (hj : d.hasJar = true) :
    setitem w d k v = ({ d with data := alPut d.data oid v }, none) := by
  simp [setitem, hc, hp, hj]

theorem getitem_tmp {w : World} {d : PersistentKeysDict V} {k : PKey} {v : V}
    (hc : k.capable = true) (ht : alGet d.tmpdata k.kid = some v) :
    getitem w d k = .ok v := by
  simp [getitem, hc, ht]

theorem getitem_data {w : World} {d : PersistentKeysDict V} {k : PKey} {oid : Nat}
    {v : V} (hc : k.capable = true) (ht : alGet d.tmpdata k.kid = none)
    (hp : poidOf w k.kid = some oid) (hd : alGet d.data oid = some v) :
    getitem w d k = .ok v := by
  simp [getitem, hc, ht, hp, hd]

theorem getitem_absent {w : World} {d : PersistentKeysDict V} {k : PKey}
    (hc : k.capable = true) (ht : alGet d.tmpdata k.kid = none)
    (hp : ∀ oid, poidOf w k.kid = some oid → alGet d.data oid = none) :
    getitem w d k = .error .keyNotFound := by
  cases hpo : poidOf w k.kid with
  | none => simp [getitem, hc, ht, hpo]
  | some oid => simp [getitem, hc, ht, hpo, hp oid hpo]

theorem getitem_capable {w : World} {d : PersistentKeysDict V} {k : PKey} {v : V}
    (h : getitem w d k = .ok v) : k.capable = true := by
  by_contra hc
  simp [getitem, Bool.not_eq_true] at hc
  simp [getitem, hc] at h

theorem getitem_cases {w : World} {d : PersistentKeysDict V} {k : PKey} {v : V}
    (h : getitem w d k = .ok v) :
    alGet d.tmpdata k.kid = some v ∨
      (alGet d.tmpdata k.kid = none ∧
        ∃ oid, poidOf w k.kid = some oid ∧ alGet d.data oid = some v) := by
  have hc := getitem_capable h
  cases ht : alGet d.tmpdata k.kid with
  | some v' =>
    simp [getitem, hc, ht] at h
    exact Or.inl (by rw [h])
  | none =>
    cases hp : poidOf w k.kid with
    | none => simp [getitem, hc, ht, hp] at h
    | some oid =>
      cases hd : alGet d.data oid with
      | none => simp [getitem, hc, ht, hp, hd] at h
      | some v' =>
        simp [getitem, hc, ht, hp, hd] at h
        exact Or.inr ⟨rfl, oid, rfl, by rw [hd, h]⟩

theorem delitem_tmp {w : World} {d : PersistentKeysDict V} {k : PKey} {v : V}
    (hc : k.capable = true) (ht : alGet d.tmpdata k.kid = some v) :
    delitem w d k = ({ d with tmpdata := alDel d.tmpdata k.kid }, none) := by
  simp [delitem, hc, ht]

theorem delitem_data {w : World} {d : PersistentKeysDict V} {k : PKey} {oid : Nat}
    {v : V} (hc : k.capable = true) (ht : alGet d.tmpdata k.kid = none)
    (hp : poidOf w k.kid = some oid) (hd : alGet d.data oid = some v) :
    delitem w d k = ({ d with data := alDel d.data oid }, none) := by
  simp [delitem, hc, ht, hp, hd]

theorem delitem_absent {w : World} {d : PersistentKeysDict V} {k : PKey}
    (hc : k.capable = true) (ht : alGet d.tmpdata k.kid = none)
    (hp : ∀ oid, poidOf w k.kid = some oid → alGet d.data oid = none) :
    delitem w d k = (d, some .keyNotFound) := by
  cases hpo : poidOf w k.kid with
  | none => simp [delitem, hc, ht, hpo]
  | some oid => simp [delitem, hc, ht, hpo, hp oid hpo]

theorem delitem_none_of_getitem {w : World} {d : PersistentKeysDict V} {k : PKey}
    {v : V} (h : getitem w d k = .ok v) : (delitem w d k).snd = none := by
  have hc := getitem_capable h
  rcases getitem_cases h with ht | ⟨ht, oid, hp, hd⟩
  · rw [delitem_tmp hc ht]
  · rw [delitem_data hc ht hp hd]

theorem containsD_true_iff {w : World} {d : PersistentKeysDict V} {k : PKey}
    (hc : k.capable = true) :
    containsD w d k = .ok true ↔
      ((alGet d.tmpdata k.kid).isSome ∨
        ∃ oid, poidOf w k.kid = some oid ∧ (alGet d.data oid).isSome) := by
  unfold containsD
  rw [if_pos hc]
  cases hp : poidOf w k.kid <;> simp

theorem containsD_false_iff {w : World} {d : PersistentKeysDict V} {k : PKey}
    (hc : k.capable = true) :
    containsD w d k = .ok false ↔
      (alGet d.tmpdata k.kid = none ∧
        ∀ oid, poidOf w k.kid = some oid → alGet d.data oid = none) := by
  cases hp : poidOf w k.kid with
  | none =>
    simp [containsD, hc, hp, Option.not_isSome_iff_eq_none]
  | some oid =>
    simp only [containsD, if_pos hc, hp]
    constructor
    · intro h
      have h' : (alGet d.tmpdata k.kid).isSome = false ∧
          (alGet d.data oid).isSome = false := by
        constructor <;> cases hx : (alGet d.tmpdata k.kid).isSome <;>
          cases hy : (alGet d.data oid).isSome <;> simp_all
      refine ⟨Option.not_isSome_iff_eq_none.mp (by simp [h'.1]), ?_⟩
      intro oid' hoid'
      injection hoid' with he
      subst he
      exact Option.not_isSome_iff_eq_none.mp (by simp [h'.2])
    · rintro ⟨h₁, h₂⟩
      simp [h₁, h₂ oid rfl]

theorem getitem_of_containsD_true {w : World} {d : PersistentKeysDict V} {k : PKey}
    (hc : k.capable = true) (h : containsD w d k = .ok true) :
    ∃ v, getitem w d k = .ok v := by
  rcases (containsD_true_iff hc).mp h with ht | ⟨oid, hp, hd⟩
  · obtain ⟨v, hv⟩ := Option.isSome_iff_exists.mp ht
    exact ⟨v, getitem_tmp hc hv⟩
  · cases htm : alGet d.tmpdata k.kid with
    | some v => exact ⟨v, getitem_tmp hc htm⟩
    | none =>
      obtain ⟨v, hv⟩ := Option.isSome_iff_exists.mp hd
      exact ⟨v, getitem_data hc htm hp hv⟩

end PersistentKeysDict

namespace PersistentKeysDict

theorem containsD_after_setitem {w : World} {d d' : PersistentKeysDict V} {k : PKey}
    {v : V} (hc : k.capable = true) (h : setitem w d k v = (d', none)) :
    containsD w d' k = .ok true := by
  by_cases hs : stagingCond w d k.kid
  · rw [setitem_staging v hc hs] at h
    injection h with h _
    subst h
    exact (containsD_true_iff hc).mpr (Or.inl (by simp [alGet_alPut_self]))
  · unfold stagingCond at hs
    push_neg at hs
    obtain ⟨oid, hp⟩ := Option.ne_none_iff_exists.mp hs.1
    have hj : d.hasJar = true := by
      cases hje : d.hasJar
      · exact absurd hje hs.2
      · rfl
    rw [setitem_persisted v hc hp.symm hj] at h
    injection h with h _
    subst h
    exact (containsD_true_iff hc).mpr
      (Or.inr ⟨oid, hp.symm, by simp [alGet_alPut_self]⟩)

theorem getitem_after_setitem {w : World} {d d' : PersistentKeysDict V} {k : PKey}
    {v : V} (hc : k.capable = true)
    (hres : stagingCond w d k.kid ∨ k.kid ∉ keysOf d.tmpdata)
    (h : setitem w d k v = (d', none)) : getitem w d' k = .ok v := by
  by_cases hs : stagingCond w d k.kid
  · rw [setitem_staging v hc hs] at h
    injection h with h _
    subst h
    exact getitem_tmp hc (by simp [alGet_alPut_self])
  · have hnt : k.kid ∉ keysOf d.tmpdata := hres.resolve_left hs
    unfold stagingCond at hs
    push_neg at hs
    obtain ⟨oid, hp⟩ := Option.ne_none_iff_exists.mp hs.1
    have hj : d.hasJar = true := by
      cases hje : d.hasJar
      · exact absurd hje hs.2
      · rfl
    rw [setitem_persisted v hc hp.symm hj] at h
    injection h with h _
    subst h
    exact getitem_data hc ((alGet_eq_none_iff _ _).mpr hnt) hp.symm
      (by simp [alGet_alPut_self])

end PersistentKeysDict

theorem PersistentKeysDict.iterKeys_eq_keysList {V : Type u} (w : World)
    (d : PersistentKeysDict V) : iterKeys w d = keysList w d := by
  unfold iterKeys keysList
  congr 1
  · induction d.data with
    | nil => rfl
    | cons e t ih =>
      obtain ⟨oid, v⟩ := e
      simp [iterKeys.iterData, ih]
  · induction d.tmpdata with
    | nil => rfl
    | cons e t ih =>
      obtain ⟨kid, v⟩ := e
      simp [iterKeys.iterTmp, ih]

theorem alPut_ne_nil {α : Type u} (l : List (Nat × α)) (k : Nat) (v : α) :
    alPut l k v ≠ [] := by
  cases l with
  | nil => simp [alPut]
  | cons e t =>
    obtain ⟨k', v'⟩ := e
    by_cases h : k' = k <;> simp [alPut, h]

theorem alPut_alPut_same {α : Type u} (l : List (Nat × α)) (k : Nat) (v v' : α) :
    alPut (alPut l k v) k v' = alPut l k v' := by
  induction l with
  | nil => simp [alPut]
  | cons e t ih =>
    obtain ⟨k₀, v₀⟩ := e
    by_cases h : k₀ = k <;> simp [alPut, h, ih]

/-! ### Claim theorems -/

open PersistentKeysDict

/-- C1, counterexample to the claim as stated: the key object with memory
identity 1 is inserted while unattached (entry goes to staging), then
becomes attached externally (world `⟨[(1, 0)], 1⟩`); a second `set` of the
same logical key then writes the persisted partition without removing the
staging entry, so `get` still returns the first value, the key occupies
both partitions at once, and `length()` counts it twice. -/
theorem C1_counterexample :
    setitem (V := Nat) ⟨[], 0⟩ ⟨[], [], true⟩ ⟨1, true⟩ 10 =
      (⟨[(1, 10)], [], true⟩, none) ∧
    setitem (V := Nat) ⟨[(1, 0)], 1⟩ ⟨[(1, 10)], [], true⟩ ⟨1, true⟩ 20 =
      (⟨[(1, 10)], [(0, 20)], true⟩, none) ∧
    getitem (V := Nat) ⟨[(1, 0)], 1⟩ ⟨[(1, 10)], [(0, 20)], true⟩ ⟨1, true⟩ =
      .ok 10 ∧
    (Except.ok 10 ≠ (Except.ok 20 : Except Err Nat)) ∧
    lenD (V := Nat) ⟨[(1, 10)], [(0, 20)], true⟩ = 2 ∧
    (1 : Nat) ∈ keysOf [((1 : Nat), (10 : Nat))] ∧
    poidOf ⟨[(1, 0)], 1⟩ 1 = some 0 ∧ (0 : Nat) ∈ keysOf [((0 : Nat), (20 : Nat))] := by
  decide

/-- C1 (amended): in a well-formed state (staged keys satisfy the staging
condition, and the persisted partition is empty while the container is
unattached), and with the key's and container's attachment unchanged
between the two calls, `set(k, v1)` followed by `set(k, v2)` overwrites:
`get(k)` returns `v2`, the second `set` leaves `length()` unchanged, and
`k` ends up in exactly one partition. -/
theorem C1_set_overwrites {V : Type} (w : World) (d d₁ d₂ : PersistentKeysDict V)
    (k : PKey) (v₁ v₂ : V) (hc : k.capable = true) (hwf : WF w d)
    (h₁ : setitem w d k v₁ = (d₁, none)) (h₂ : setitem w d₁ k v₂ = (d₂, none)) :
    getitem w d₂ k = .ok v₂ ∧ lenD d₂ = lenD d₁ ∧
      (k.kid ∈ keysOf d₂.tmpdata ↔
        ¬ ∃ oid, poidOf w k.kid = some oid ∧ oid ∈ keysOf d₂.data) := by
  by_cases hs : stagingCond w d k.kid
  · rw [setitem_staging v₁ hc hs] at h₁
    injection h₁ with h₁ _
    subst h₁
    have hs₁ : stagingCond w
        ({ d with tmpdata := alPut d.tmpdata k.kid v₁ } : PersistentKeysDict V)
        k.kid := hs
    rw [setitem_staging v₂ hc hs₁] at h₂
    injection h₂ with h₂ _
    subst h₂
    refine ⟨getitem_tmp hc (by simp [alGet_alPut_self]), ?_, ?_⟩
    · have hmem : k.kid ∈ keysOf (alPut d.tmpdata k.kid v₁) :=
        (mem_keysOf_alPut _ _ _ _).mpr (Or.inl rfl)
      simp [lenD, length_alPut_of_mem v₂ hmem]
    · have hmem : k.kid ∈ keysOf (alPut (alPut d.tmpdata k.kid v₁) k.kid v₂) :=
        (mem_keysOf_alPut _ _ _ _).mpr (Or.inl rfl)
      simp only [hmem, true_iff]
      rintro ⟨oid, hp, hmd⟩
      rcases hs with hs | hs
      · rw [hs] at hp
        exact Option.noConfusion hp
      · rcases hwf.2 with hj | hd
        · rw [hs] at hj
          exact Bool.noConfusion hj
        · rw [hd] at hmd
          simp [keysOf_nil] at hmd
  · have hnt : k.kid ∉ keysOf d.tmpdata := fun hm => hs (hwf.1 k.kid hm)
    unfold stagingCond at hs
    push_neg at hs
    obtain ⟨oid, hp⟩ := Option.ne_none_iff_exists.mp hs.1
    have hj : d.hasJar = true := by
      cases hje : d.hasJar
      · exact absurd hje hs.2
      · rfl
    rw [setitem_persisted v₁ hc hp.symm hj] at h₁
    injection h₁ with h₁ _
    subst h₁
    have hj₁ : ({ d with data := alPut d.data oid v₁ } :
        PersistentKeysDict V).hasJar = true := hj
    rw [setitem_persisted v₂ hc hp.symm hj₁] at h₂
    injection h₂ with h₂ _
    subst h₂
    refine ⟨getitem_data hc ((alGet_eq_none_iff _ _).mpr hnt) hp.symm
      (by simp [alGet_alPut_self]), ?_, ?_⟩
    · have hmem : oid ∈ keysOf (alPut d.data oid v₁) :=
        (mem_keysOf_alPut _ _ _ _).mpr (Or.inl rfl)
      simp [lenD, length_alPut_of_mem v₂ hmem]
    · simp only [hnt, false_iff, not_not]
      exact ⟨oid, hp.symm, (mem_keysOf_alPut _ _ _ _).mpr (Or.inl rfl)⟩

/-- Witness for C1 (amended) at a concrete input: a fresh unattached key
inserted twice into a fresh attached container. -/
theorem C1_set_overwrites_witness :
    getitem (V := Nat) ⟨[], 0⟩ ⟨[(1, 8)], [], true⟩ ⟨1, true⟩ = .ok 8 ∧
      lenD (V := Nat) ⟨[(1, 8)], [], true⟩ = lenD (V := Nat) ⟨[(1, 7)], [], true⟩ ∧
      ((1 : Nat) ∈ keysOf [((1 : Nat), (8 : Nat))] ↔
        ¬ ∃ oid, poidOf ⟨[], 0⟩ 1 = some oid ∧ oid ∈ keysOf ([] : List (Nat × Nat))) :=
  C1_set_overwrites ⟨[], 0⟩ ⟨[], [], true⟩ ⟨[(1, 7)], [], true⟩ ⟨[(1, 8)], [], true⟩
    ⟨1, true⟩ 7 8 (by decide) (by decide) (by decide) (by decide)

/-- C3, counterexample to the claim as stated: in a reachable state where
the attached key object (memory identity 1, oid 0) still has a stale
staging entry, `set(k, v)` writes the persisted partition, but the
immediately following `get(k)` reads the staging entry first and returns
the stale value instead of `v`. -/
theorem C3_counterexample :
    setitem (V := Nat) ⟨[(1, 0)], 1⟩ ⟨[(1, 10)], [], true⟩ ⟨1, true⟩ 20 =
      (⟨[(1, 10)], [(0, 20)], true⟩, none) ∧
    getitem (V := Nat) ⟨[(1, 0)], 1⟩ ⟨[(1, 10)], [(0, 20)], true⟩ ⟨1, true⟩ =
      .ok 10 ∧
    (Except.ok 10 ≠ (Except.ok 20 : Except Err Nat)) ∧
    poidOf ⟨[(1, 0)], 1⟩ 1 = some 0 := by
  decide

/-- C3 (amended): `set(k, v)` immediately followed by `get(k)` returns `v`
whenever `k` goes to staging (unattached key or unattached container) —
unconditionally — and, when it goes to the persisted partition, provided
no stale staging entry for `k` is present. -/
theorem C3_set_get (V : Type) (w : World) (d d' : PersistentKeysDict V) (k : PKey)
    (v : V) (hc : k.capable = true)
    (hres : stagingCond w d k.kid ∨ k.kid ∉ keysOf d.tmpdata)
    (h : setitem w d k v = (d', none)) : getitem w d' k = .ok v :=
  getitem_after_setitem hc hres h

/-- Witness for C3 (amended): one unattached insertion and one attached
insertion, each immediately read back. -/
theorem C3_set_get_witness :
    getitem (V := Nat) ⟨[], 0⟩ ⟨[(1, 7)], [], true⟩ ⟨1, true⟩ = .ok 7 ∧
    getitem (V := Nat) ⟨[(2, 5)], 6⟩ ⟨[], [(5, 9)], true⟩ ⟨2, true⟩ = .ok 9 :=
  ⟨C3_set_get Nat ⟨[], 0⟩ ⟨[], [], true⟩ ⟨[(1, 7)], [], true⟩ ⟨1, true⟩ 7 (by decide)
      (by decide) (by decide),
    C3_set_get Nat ⟨[(2, 5)], 6⟩ ⟨[], [], true⟩ ⟨[], [(5, 9)], true⟩ ⟨2, true⟩ 9
      (by decide) (by decide) (by decide)⟩

/-- C4: `__getstate__` (the flush) on a container that is not attached to
any connection fails with `IllegalState`, whatever the partitions hold. -/
theorem C4_flush_unattached (V : Type u) (w : World) (d : PersistentKeysDict V)
    (h : d.hasJar = false) : getstate w d = ((w, d), some .illegalState) := by
  simp [getstate, h]

/-- Witness for C4: an unattached container with a staged entry. -/
theorem C4_flush_unattached_witness :
    getstate (V := Nat) ⟨[], 0⟩ ⟨[(1, 7)], [], false⟩ =
      ((⟨[], 0⟩, ⟨[(1, 7)], [], false⟩), some .illegalState) :=
  C4_flush_unattached Nat ⟨[], 0⟩ ⟨[(1, 7)], [], false⟩ (by decide)

/-- C7: every operation given a key without the identity slot fails with
`InvalidKey` (`checkKey` raises `TypeError`), in every container state. -/
theorem C7_invalid_key (V : Type u) (w : World) (d : PersistentKeysDict V)
    (k : PKey) (v : V) (hc : k.capable = false) :
    setitem w d k v = (d, some .invalidKey) ∧
    getitem w d k = .error .invalidKey ∧
    delitem w d k = (d, some .invalidKey) ∧
    containsD w d k = .error .invalidKey := by
  refine ⟨?_, ?_, ?_, ?_⟩ <;> simp [setitem, getitem, delitem, containsD, hc]

/-- Witness for C7: an incapable key against a populated container. -/
theorem C7_invalid_key_witness :
    setitem (V := Nat) ⟨[], 0⟩ ⟨[(1, 7)], [(2, 8)], true⟩ ⟨3, false⟩ 5 =
      (⟨[(1, 7)], [(2, 8)], true⟩, some .invalidKey) ∧
    getitem (V := Nat) ⟨[], 0⟩ ⟨[(1, 7)], [(2, 8)], true⟩ ⟨3, false⟩ =
      .error .invalidKey ∧
    delitem (V := Nat) ⟨[], 0⟩ ⟨[(1, 7)], [(2, 8)], true⟩ ⟨3, false⟩ =
      (⟨[(1, 7)], [(2, 8)], true⟩, some .invalidKey) ∧
    containsD (V := Nat) ⟨[], 0⟩ ⟨[(1, 7)], [(2, 8)], true⟩ ⟨3, false⟩ =
      .error .invalidKey :=
  C7_invalid_key Nat ⟨[], 0⟩ ⟨[(1, 7)], [(2, 8)], true⟩ ⟨3, false⟩ 5 (by decide)

/-- C6: for an identity-capable key absent from both partitions, `get` and
`delete` fail with `KeyNotFound`; and the lookup tries staging first —
a staging entry is returned (and deleted from staging) even if the key's
oid also has a persisted entry. -/
theorem C6_absent_key (V : Type u) (w : World) (d : PersistentKeysDict V)
    (k : PKey) (hc : k.capable = true) :
    ((alGet d.tmpdata k.kid = none ∧
        (∀ oid, poidOf w k.kid = some oid → alGet d.data oid = none)) →
      getitem w d k = .error .keyNotFound ∧
        delitem w d k = (d, some .keyNotFound)) ∧
    (∀ v, alGet d.tmpdata k.kid = some v →
      getitem w d k = .ok v ∧
        delitem w d k = ({ d with tmpdata := alDel d.tmpdata k.kid }, none)) := by
  constructor
  · rintro ⟨ht, hp⟩
    exact ⟨getitem_absent hc ht hp, delitem_absent hc ht hp⟩
  · intro v ht
    exact ⟨getitem_tmp hc ht, delitem_tmp hc ht⟩

/-- Witness for C6: a key absent from both partitions, and a key whose
staging entry shadows a persisted entry under its oid. -/
theorem C6_absent_key_witness :
    (getitem (V := Nat) ⟨[(1, 0)], 1⟩ ⟨[(2, 7)], [(5, 8)], true⟩ ⟨1, true⟩ =
        .error .keyNotFound ∧
      delitem (V := Nat) ⟨[(1, 0)], 1⟩ ⟨[(2, 7)], [(5, 8)], true⟩ ⟨1, true⟩ =
        (⟨[(2, 7)], [(5, 8)], true⟩, some .keyNotFound)) ∧
    (getitem (V := Nat) ⟨[(2, 5)], 6⟩ ⟨[(2, 7)], [(5, 8)], true⟩ ⟨2, true⟩ =
        .ok 7 ∧
      delitem (V := Nat) ⟨[(2, 5)], 6⟩ ⟨[(2, 7)], [(5, 8)], true⟩ ⟨2, true⟩ =
        (⟨[], [(5, 8)], true⟩, none)) :=
  ⟨(C6_absent_key Nat ⟨[(1, 0)], 1⟩ ⟨[(2, 7)], [(5, 8)], true⟩ ⟨1, true⟩
      (by decide)).1 (by decide),
    (C6_absent_key Nat ⟨[(2, 5)], 6⟩ ⟨[(2, 7)], [(5, 8)], true⟩ ⟨2, true⟩
      (by decide)).2 7 (by decide)⟩

/-- C8, counterexample to the claim as stated: staged keys with memory
identities 9 and 8, inserted in that order into the Python 2 `_tmpdata`
dict (table size 8, slots 1 and 0, no collision), are iterated in
hash-slot order `[8, 9]`, so the staged segment of `keys()` is not the
insertion order `[9, 8]`.  (The claim's "lazy" is likewise not a property
of the code: `keys()` builds an eager list, and its comment marks a lazy
sequence as an unimplemented optimization.) -/
theorem C8_counterexample :
    py2IntDictIterKeys 8 [9, 8] = [8, 9] ∧
    py2IntDictIterKeys 8 [9, 8] ≠ [9, 8] ∧
    (keysList (V := Nat) ⟨[], 0⟩ ⟨[(8, 0), (9, 0)], [], true⟩).drop 0 =
      [some 8, some 9] ∧
    ([some 8, some 9] : List (Option Nat)) ≠ [some 9, some 8] := by
  decide

/-- C8 (amended): `keys()` returns a finite eager list (restartable, but
not lazy) that agrees with the `__iter__` sequence; both consist of all
persisted keys (resolved through the connection) first, followed by the
staged keys in the staging table's storage order — for the Python 2 dict
that is hash-table order, not insertion order — and the total length is
`length()`. -/
theorem C8_keys_order (V : Type u) (w : World) (d : PersistentKeysDict V) :
    iterKeys w d = keysList w d ∧
    (keysList w d).take d.data.length = d.data.map (fun e => resolveOid w e.1) ∧
    (keysList w d).drop d.data.length = d.tmpdata.map (fun e => some e.1) ∧
    (keysList w d).length = lenD d := by
  refine ⟨iterKeys_eq_keysList w d, ?_, ?_, ?_⟩
  · unfold keysList
    rw [List.take_append_of_le_length (by simp)]
    simp
  · unfold keysList
    rw [List.drop_append_of_le_length (by simp)]
    simp
  · simp [keysList, lenD]

/-- C9: `PersistentKeysSet.add` is idempotent — adding an item when it is
already present is a no-op, so a second `add` right after a first one
returns the same state and leaves the length unchanged. -/
theorem C9_add_idempotent (w : World) (d d₁ : PersistentKeysSet) (x : PKey)
    (hc : x.capable = true)
    (h : PersistentKeysSet.addS w d x = (d₁, none)) :
    PersistentKeysSet.addS w d₁ x = (d₁, none) ∧
    PersistentKeysSet.lenS (PersistentKeysSet.addS w d₁ x).fst =
      PersistentKeysSet.lenS d₁ ∧
    (containsD w d x = .ok true → d₁ = d) := by
  have hcont : containsD w d₁ x = .ok true := by
    unfold PersistentKeysSet.addS at h
    cases hcd : containsD w d x with
    | error e =>
      rw [hcd] at h
      exact absurd h (by simp)
    | ok b =>
      cases b with
      | true =>
        rw [hcd] at h
        injection h with h _
        subst h
        exact hcd
      | false =>
        rw [hcd] at h
        exact containsD_after_setitem hc h
  have hsecond : PersistentKeysSet.addS w d₁ x = (d₁, none) := by
    unfold PersistentKeysSet.addS
    rw [hcont]
  refine ⟨hsecond, by rw [hsecond], ?_⟩
  intro htrue
  unfold PersistentKeysSet.addS at h
  rw [htrue] at h
  injection h with h _
  exact h.symm

/-- Witness for C9: a fresh unattached item added to an empty set, then
added again. -/
theorem C9_add_idempotent_witness :
    PersistentKeysSet.addS ⟨[], 0⟩ (⟨[(1, ())], [], true⟩ : PersistentKeysSet)
        ⟨1, true⟩ = (⟨[(1, ())], [], true⟩, none) ∧
    PersistentKeysSet.lenS (PersistentKeysSet.addS ⟨[], 0⟩
        (⟨[(1, ())], [], true⟩ : PersistentKeysSet) ⟨1, true⟩).fst =
      PersistentKeysSet.lenS (⟨[(1, ())], [], true⟩ : PersistentKeysSet) ∧
    (containsD ⟨[], 0⟩ (⟨[], [], true⟩ : PersistentKeysSet) ⟨1, true⟩ = .ok true →
      (⟨[(1, ())], [], true⟩ : PersistentKeysSet) = ⟨[], [], true⟩) :=
  C9_add_idempotent ⟨[], 0⟩ ⟨[], [], true⟩ ⟨[(1, ())], [], true⟩ ⟨1, true⟩
    (by decide) (by decide)

namespace PersistentKeysDict

theorem flushCore_spec {V : Type u} (tmp : List (Nat × V)) (w : World)
    (data : List (Nat × V)) (hw : Wgood w) (hnd : (keysOf tmp).Nodup) :
    Wgood (flushCore w tmp data).1 ∧
    w.nextOid ≤ (flushCore w tmp data).1.nextOid ∧
    (∀ k o, poidOf w k = some o → poidOf (flushCore w tmp data).1 k = some o) ∧
    (∀ oid v, alGet data oid = some v → oid < w.nextOid →
      (∀ kid₂ ∈ keysOf tmp, poidOf w kid₂ ≠ some oid) →
      alGet (flushCore w tmp data).2 oid = some v) ∧
    (∀ kid v, alGet tmp kid = some v →
      ∃ oid, poidOf (flushCore w tmp data).1 kid = some oid ∧
        alGet (flushCore w tmp data).2 oid = some v) := by
  induction tmp generalizing w data with
  | nil =>
    refine ⟨hw, le_refl _, fun k o h => h, fun oid v h _ _ => h, fun kid v h => ?_⟩
    simp [alGet] at h
  | cons e rest ih =>
    obtain ⟨kid, v⟩ := e
    rw [keysOf_cons] at hnd
    have hknr : kid ∉ keysOf rest := (List.nodup_cons.mp hnd).1
    have hndr : (keysOf rest).Nodup := hnd.of_cons
    cases hp : poidOf w kid with
    | some oid₀ =>
      have hmem₀ : (kid, oid₀) ∈ w.attached := mem_of_alGet hp
      have hlt₀ : oid₀ < w.nextOid := hw.1 _ hmem₀
      have heq : flushCore w ((kid, v) :: rest) data =
          flushCore w rest (alPut data oid₀ v) := by
        simp [flushCore, hp]
      rw [heq]
      obtain ⟨ihw, ihle, ihmono, ihpres, ihlast⟩ := ih w (alPut data oid₀ v) hw hndr
      have hnotrest : ∀ kid₂ ∈ keysOf rest, poidOf w kid₂ ≠ some oid₀ := by
        intro kid₂ hm hc
        have : kid₂ = kid := hw.2.2 _ (mem_of_alGet hc) _ hmem₀ rfl
        exact hknr (this ▸ hm)
      refine ⟨ihw, ihle, ihmono, ?_, ?_⟩
      · intro oid v' hv hlt hno
        have hne : oid₀ ≠ oid := fun he =>
          hno kid (by rw [keysOf_cons]; exact List.mem_cons_self _ _) (he ▸ hp)
        exact ihpres oid v' (by rw [alGet_alPut_ne _ _ _ _ (Ne.symm hne)]; exact hv)
          hlt (fun kid₂ hm =>
            hno kid₂ (by rw [keysOf_cons]; exact List.mem_cons_of_mem _ hm))
      · intro kid' v' hv
        by_cases hk : kid = kid'
        · subst hk
          simp [alGet] at hv
          subst hv
          refine ⟨oid₀, ihmono _ _ hp, ?_⟩
          exact ihpres oid₀ v (alGet_alPut_self _ _ _) hlt₀ hnotrest
        · simp [alGet, hk] at hv
          exact ihlast kid' v' hv
    | none =>
      have heq : flushCore w ((kid, v) :: rest) data =
          flushCore (jarAdd w kid) rest (alPut data w.nextOid v) := by
        simp [flushCore, hp]
      rw [heq]
      have hw₁ : Wgood (jarAdd w kid) := Wgood_jarAdd hw hp
      obtain ⟨ihw, ihle, ihmono, ihpres, ihlast⟩ :=
        ih (jarAdd w kid) (alPut data w.nextOid v) hw₁ hndr
      have hle₁ : w.nextOid ≤ (jarAdd w kid).nextOid := by simp [jarAdd]
      have hattach : ∀ kid₂ oid, poidOf (jarAdd w kid) kid₂ = some oid →
          (kid₂, oid) ∈ w.attached ∨ (kid₂ = kid ∧ oid = w.nextOid) := by
        intro kid₂ oid hg
        have hm := mem_of_alGet hg
        rcases (by simpa [jarAdd] using hm :
            (kid₂, oid) ∈ w.attached ∨ kid₂ = kid ∧ oid = w.nextOid) with hm' | hm'
        · exact Or.inl hm'
        · exact Or.inr hm'
      refine ⟨ihw, le_trans hle₁ ihle, ?_, ?_, ?_⟩
      · intro k o h
        exact ihmono _ _ (poidOf_jarAdd_mono h)
      · intro oid v' hv hlt hno
        refine ihpres oid v' (by rw [alGet_alPut_ne _ _ _ _ (by omega)]; exact hv)
          (by show oid < w.nextOid + 1; omega) ?_
        intro kid₂ hm hc
        rcases hattach kid₂ oid hc with hm' | ⟨he₁, he₂⟩
        · exact hno kid₂ (by rw [keysOf_cons]; exact List.mem_cons_of_mem _ hm)
            (poidOf_of_mem_attached hw.2.1 hm')
        · omega
      · intro kid' v' hv
        by_cases hk : kid = kid'
        · subst hk
          simp [alGet] at hv
          subst hv
          refine ⟨w.nextOid, ihmono _ _ (poidOf_jarAdd_self hp), ?_⟩
          refine ihpres w.nextOid v (alGet_alPut_self _ _ _)
            (by show w.nextOid < w.nextOid + 1; omega) ?_
          intro kid₂ hm₂ hc
          rcases hattach kid₂ w.nextOid hc with hm' | ⟨he₁, he₂⟩
          · exact absurd (hw.1 _ hm') (by simp)
          · exact hknr (he₁ ▸ hm₂)
        · simp [alGet, hk] at hv
          exact ihlast kid' v' hv

end PersistentKeysDict

/-- C2: flushing an attached container (`__getstate__` with a connection)
attaches every staged key that is not already attached, moves every staged
entry into the persisted partition under the key's stable identifier with
its value unchanged, leaves staging empty, and preserves the identifiers
of keys that were already attached. -/
theorem C2_flush (V : Type u) (w w' : World) (d d' : PersistentKeysDict V)
    (hj : d.hasJar = true) (hw : Wgood w) (hnd : (keysOf d.tmpdata).Nodup)
    (h : getstate w d = ((w', d'), none)) :
    d'.tmpdata = [] ∧
    (∀ kid ∈ keysOf d.tmpdata, ∃ oid, poidOf w' kid = some oid) ∧
    (∀ kid v, alGet d.tmpdata kid = some v →
      ∃ oid, poidOf w' kid = some oid ∧ alGet d'.data oid = some v) ∧
    (∀ kid oid, poidOf w kid = some oid → poidOf w' kid = some oid) := by
  obtain ⟨hgw, hle, hmono, hpres, hlast⟩ := flushCore_spec d.tmpdata w d.data hw hnd
  have hval : getstate w d = (((flushCore w d.tmpdata d.data).1,
      { tmpdata := [], data := (flushCore w d.tmpdata d.data).2,
        hasJar := d.hasJar }), none) := by
    simp [getstate, hj]
  rw [hval] at h
  injection h with h _
  injection h with hw' hd'
  subst hw'
  subst hd'
  refine ⟨rfl, ?_, ?_, hmono⟩
  · intro kid hm
    obtain ⟨v, hv⟩ := Option.isSome_iff_exists.mp (alGet_isSome_of_mem_keysOf hm)
    obtain ⟨oid, ho, _⟩ := hlast kid v hv
    exact ⟨oid, ho⟩
  · intro kid v hv
    exact hlast kid v hv

/-- Witness for C2: a container with two staged entries, one key
unattached and one already attached, flushed under a connection with one
prior assignment. -/
theorem C2_flush_witness :
    (⟨[], [(6, 7), (5, 8)], true⟩ : PersistentKeysDict Nat).tmpdata = [] ∧
    (∀ kid ∈ keysOf [((1 : Nat), (7 : Nat)), (2, 8)],
      ∃ oid, poidOf ⟨[(2, 5), (1, 6)], 7⟩ kid = some oid) ∧
    (∀ kid v, alGet [((1 : Nat), (7 : Nat)), (2, 8)] kid = some v →
      ∃ oid, poidOf ⟨[(2, 5), (1, 6)], 7⟩ kid = some oid ∧
        alGet [((6 : Nat), (7 : Nat)), (5, 8)] oid = some v) ∧
    (∀ kid oid, poidOf ⟨[(2, 5)], 6⟩ kid = some oid →
      poidOf ⟨[(2, 5), (1, 6)], 7⟩ kid = some oid) :=
  C2_flush Nat ⟨[(2, 5)], 6⟩ ⟨[(2, 5), (1, 6)], 7⟩
    ⟨[(1, 7), (2, 8)], [], true⟩ ⟨[], [(6, 7), (5, 8)], true⟩
    (by decide) (by decide) (by decide) (by decide)

namespace PersistentKeysDict

theorem containsD_capable {w : World} {d : PersistentKeysDict V} {k : PKey}
    {b : Bool} (h : containsD w d k = .ok b) : k.capable = true := by
  by_contra hc
  simp [Bool.not_eq_true] at hc
  simp [containsD, hc] at h

theorem setitem_snd_none {w : World} {d : PersistentKeysDict V} {k : PKey} (v : V)
    (hc : k.capable = true) : (setitem w d k v).snd = none := by
  cases hp : poidOf w k.kid with
  | none => simp [setitem, hc, hp]
  | some oid => cases hj : d.hasJar <;> simp [setitem, hc, hp, hj]

theorem setitem_pair_eq {w : World} {d : PersistentKeysDict V} {k : PKey} (v : V)
    (hc : k.capable = true) :
    setitem w d k v = ((setitem w d k v).fst, none) := by
  have h := setitem_snd_none (d := d) (w := w) v hc
  exact Prod.ext rfl h

end PersistentKeysDict

/-- C10: whenever one of the mutating operations of either container
(`__setitem__` and `__delitem__` of `PersistentKeysDict`, `__setitem__`
and `__delitem__` of `PersistentPairKeysDict`) raises `InvalidKey` or
`KeyNotFound`, the state accompanying the exception is exactly the state
before the call: the capability check and the absent-key lookup precede
every mutation.  (`__getitem__` of both containers performs no state
mutation at all, as its embedding shows.) -/
theorem C10_atomic_errors (V : Type u) (w : World) (d : PersistentKeysDict V)
    (k : PKey) (v : V) (st : PersistentPairKeysDict V) (p : PKey) (s : Nat)
    (vv : V) :
    (∀ d' e, setitem w d k v = (d', some e) → d' = d) ∧
    (∀ d' e, delitem w d k = (d', some e) → d' = d) ∧
    (∀ st' e, PersistentPairKeysDict.pairSet w st p s vv = (st', some e) →
      st' = st) ∧
    (∀ st' e, PersistentPairKeysDict.pairDel w st p s = (st', some e) →
      st' = st) := by
  refine ⟨?_, ?_, ?_, ?_⟩
  · intro d' e h
    cases hc : k.capable with
    | false =>
      simp [setitem, hc] at h
      exact h.1.symm
    | true =>
      have := setitem_snd_none (w := w) (d := d) v hc
      rw [h] at this
      exact absurd this (by simp)
  · intro d' e h
    cases hc : k.capable with
    | false =>
      simp [delitem, hc] at h
      exact h.1.symm
    | true =>
      cases ht : alGet d.tmpdata k.kid with
      | some v₀ => simp [delitem, hc, ht] at h
      | none =>
        cases hp : poidOf w k.kid with
        | none =>
          simp [delitem, hc, ht, hp] at h
          exact h.1.symm
        | some oid =>
          cases hd : alGet d.data oid with
          | some v₀ => simp [delitem, hc, ht, hp, hd] at h
          | none =>
            simp [delitem, hc, ht, hp, hd] at h
            exact h.1.symm
  · intro st' e h
    cases hcd : PersistentKeysDict.containsD w st.outer p with
    | error e' =>
      simp [PersistentPairKeysDict.pairSet, hcd] at h
      exact h.1.symm
    | ok c =>
      have hc : p.capable = true := containsD_capable hcd
      cases c with
      | true =>
        cases hg : getitem w st.outer p with
        | error e' =>
          exfalso
          obtain ⟨v₀, hv₀⟩ := getitem_of_containsD_true hc hcd
          rw [hv₀] at hg
          exact Except.noConfusion hg
        | ok dref =>
          simp [PersistentPairKeysDict.pairSet, hcd, hg] at h
      | false =>
        have hnt : p.kid ∉ keysOf st.outer.tmpdata :=
          (alGet_eq_none_iff _ _).mp ((containsD_false_iff hc).mp hcd).1
        have hset := setitem_pair_eq (w := w) (d := st.outer) (k := p)
          st.nextRef hc
        have hg : getitem w (setitem w st.outer p st.nextRef).fst p =
            .ok st.nextRef :=
          getitem_after_setitem hc (Or.inr hnt) hset
        simp [PersistentPairKeysDict.pairSet, hcd, hg] at h
  · intro st' e h
    cases hg : getitem w st.outer p with
    | error e' =>
      simp [PersistentPairKeysDict.pairDel, hg] at h
      exact h.1.symm
    | ok dref =>
      cases hh : alGet st.heap dref with
      | none =>
        simp [PersistentPairKeysDict.pairDel, hg, hh] at h
        exact h.1.symm
      | some dct =>
        cases hds : alGet dct s with
        | none =>
          simp [PersistentPairKeysDict.pairDel, hg, hh, hds] at h
          exact h.1.symm
        | some v₀ =>
          have hdel := delitem_none_of_getitem hg
          cases hemp : (alDel dct s).isEmpty with
          | true =>
            cases hde : delitem w st.outer p with
            | mk o' oe =>
              rw [hde] at hdel
              simp at hdel
              subst hdel
              simp [PersistentPairKeysDict.pairDel, hg, hh, hds, hemp, hde] at h
          | false =>
            simp [PersistentPairKeysDict.pairDel, hg, hh, hds, hemp] at h

/-- Witness for C10: an `InvalidKey` failure of `__setitem__` and a
`KeyNotFound` failure of the pair store's `__delitem__`, each leaving the
concrete state untouched. -/
theorem C10_atomic_errors_witness :
    (⟨[(1, 7)], [], true⟩ : PersistentKeysDict Nat) = ⟨[(1, 7)], [], true⟩ ∧
    (⟨⟨[], [], true⟩, [], 0⟩ : PersistentPairKeysDict Nat) =
      ⟨⟨[], [], true⟩, [], 0⟩ :=
  ⟨(C10_atomic_errors Nat ⟨[], 0⟩ ⟨[(1, 7)], [], true⟩ ⟨2, false⟩ 5
      ⟨⟨[], [], true⟩, [], 0⟩ ⟨3, true⟩ 4 6).1 ⟨[(1, 7)], [], true⟩ .invalidKey
      (by decide),
    (C10_atomic_errors Nat ⟨[], 0⟩ ⟨[(1, 7)], [], true⟩ ⟨2, false⟩ 5
      ⟨⟨[], [], true⟩, [], 0⟩ ⟨3, true⟩ 4 6).2.2.2 ⟨⟨[], [], true⟩, [], 0⟩
      .keyNotFound (by decide)⟩

/-- C5, counterexample to the claim as stated: starting from a fresh pair
store, the primary (memory identity 1) is given a first secondary entry
while unattached, becomes attached externally (oid 0), receives a second
secondary entry — which moves the shared inner dict reference into the
persisted partition while the staging entry remains — and then both
secondary entries are deleted.  The reachable final state stores the
primary (under oid 0) with an empty inner dict, and after the delete of
the last secondary entry the primary still appears among the iterated
primaries. -/
theorem C5_counterexample :
    PReach ⟨[(1, 0)], 1⟩ ⟨⟨[], [(0, 0)], true⟩, [(0, [])], 1⟩ ∧
    PersistentPairKeysDict.pairDel ⟨[(1, 0)], 1⟩
      ⟨⟨[(1, 0)], [(0, 0)], true⟩, [(0, [(11, 6)])], 1⟩ ⟨1, true⟩ 11 =
      (⟨⟨[], [(0, 0)], true⟩, [(0, [])], 1⟩, none) ∧
    alGet [((11 : Nat), (6 : Nat))] 11 = some 6 ∧
    alDel [((11 : Nat), (6 : Nat))] 11 = [] ∧
    (0 : Nat) ∈ PersistentPairKeysDict.storedRefs
      (⟨⟨[], [(0, 0)], true⟩, [(0, [])], 1⟩ : PersistentPairKeysDict Nat) ∧
    alGet ([(0, [])] : List (Nat × List (Nat × Nat))) 0 = some [] ∧
    some 1 ∈ PersistentPairKeysDict.pairPrimaries ⟨[(1, 0)], 1⟩
      (⟨⟨[], [(0, 0)], true⟩, [(0, [])], 1⟩ : PersistentPairKeysDict Nat) := by
  refine ⟨?_, by decide, by decide, by decide, by decide, by decide, by decide⟩
  have h0 : PReach ⟨[], 0⟩ ⟨⟨[], [], true⟩, [], 0⟩ := PReach.init
  have h1 : PReach ⟨[], 0⟩ ⟨⟨[(1, 0)], [], true⟩, [(0, [(10, 5)])], 1⟩ :=
    PReach.setp _ _ _ ⟨1, true⟩ 10 5 h0 (by decide)
  have h2 : PReach ⟨[(1, 0)], 1⟩ ⟨⟨[(1, 0)], [], true⟩, [(0, [(10, 5)])], 1⟩ :=
    PReach.attach _ _ 1 h1 (by decide)
  have h3 : PReach ⟨[(1, 0)], 1⟩
      ⟨⟨[(1, 0)], [(0, 0)], true⟩, [(0, [(10, 5), (11, 6)])], 1⟩ :=
    PReach.setp _ _ _ ⟨1, true⟩ 11 6 h2 (by decide)
  have h4 : PReach ⟨[(1, 0)], 1⟩
      ⟨⟨[(1, 0)], [(0, 0)], true⟩, [(0, [(11, 6)])], 1⟩ :=
    PReach.delp _ _ _ ⟨1, true⟩ 10 h3 (by decide)
  exact PReach.delp _ _ _ ⟨1, true⟩ 11 h4 (by decide)

namespace PersistentKeysDict

theorem setitem_reassign {w : World} {o : PersistentKeysDict V} {p : PKey}
    {dref : V} (h1 : ∀ kid ∈ keysOf o.tmpdata, stagingCond w o kid)
    (h2 : o.hasJar = true ∨ o.data = [])
    (hg : getitem w o p = .ok dref) : (setitem w o p dref).fst = o := by
  have hc := getitem_capable hg
  rcases getitem_cases hg with ht | ⟨ht, oid, hp, hd⟩
  · have hs : stagingCond w o p.kid := h1 _ (mem_keysOf_of_alGet ht)
    rw [setitem_staging dref hc hs]
    show ({ o with tmpdata := alPut o.tmpdata p.kid dref } :
      PersistentKeysDict V) = o
    rw [alPut_eq_self ht]
  · have hj : o.hasJar = true := by
      rcases h2 with h2 | h2
      · exact h2
      · rw [h2] at hd
        simp [alGet] at hd
    rw [setitem_persisted dref hc hp hj]
    show ({ o with data := alPut o.data oid dref } : PersistentKeysDict V) = o
    rw [alPut_eq_self hd]

end PersistentKeysDict

namespace PersistentPairKeysDict

open PersistentKeysDict

/-- Invariant of pair-store states under a fixed connection: staged
primaries satisfy the staging condition, the persisted partition is empty
while the container is unattached, both partitions are duplicate-free,
every stored inner-dict reference points to a non-empty dict, distinct
outer entries hold distinct references, and every reference (stored or in
the heap) is below the allocation counter. -/
def InvP (w : World) (st : PersistentPairKeysDict V) : Prop :=
  (∀ kid ∈ keysOf st.outer.tmpdata, stagingCond w st.outer kid) ∧
  (st.outer.hasJar = true ∨ st.outer.data = []) ∧
  (keysOf st.outer.tmpdata).Nodup ∧
  (keysOf st.outer.data).Nodup ∧
  (∀ r ∈ storedRefs st, ∃ dct, alGet st.heap r = some dct ∧ dct ≠ []) ∧
  (storedRefs st).Nodup ∧
  (∀ r ∈ storedRefs st, r < st.nextRef) ∧
  (∀ r ∈ keysOf st.heap, r < st.nextRef)

theorem storedRef_of_getitem {w : World} {st : PersistentPairKeysDict V}
    {p : PKey} {dref : Nat} (hg : getitem w st.outer p = .ok dref) :
    dref ∈ storedRefs st := by
  rcases getitem_cases hg with ht | ⟨_, oid, _, hd⟩
  · exact List.mem_append_left _
      (List.mem_map_of_mem Prod.snd (mem_of_alGet ht))
  · exact List.mem_append_right _
      (List.mem_map_of_mem Prod.snd (mem_of_alGet hd))

end PersistentPairKeysDict

namespace PersistentPairKeysDict

open PersistentKeysDict

theorem InvP_pairSet {w : World} {st st' : PersistentPairKeysDict V} {p : PKey}
    {s : Nat} {v : V} (hI : InvP w st) (h : pairSet w st p s v = (st', none)) :
    InvP w st' := by
  obtain ⟨i1, i2, i3, i4, i5, i6, i7, i8⟩ := hI
  cases hcd : containsD w st.outer p with
  | error e => simp [pairSet, hcd] at h
  | ok c =>
    have hc := containsD_capable hcd
    cases c with
    | true =>
      obtain ⟨dref, hg⟩ := getitem_of_containsD_true hc hcd
      have hsr : dref ∈ storedRefs st := storedRef_of_getitem hg
      obtain ⟨dct₀, hdct₀, hne₀⟩ := i5 dref hsr
      have hre : (setitem w st.outer p dref).fst = st.outer :=
        setitem_reassign i1 i2 hg
      have heq : pairSet w st p s v =
          ({ outer := st.outer, heap := alPut st.heap dref (alPut dct₀ s v),
             nextRef := st.nextRef }, none) := by
        simp [pairSet, hcd, hg, hdct₀, hre]
      rw [heq] at h
      injection h with h _
      subst h
      refine ⟨i1, i2, i3, i4, ?_, i6, i7, ?_⟩
      · intro r hr
        by_cases hrd : r = dref
        · subst hrd
          exact ⟨alPut dct₀ s v, alGet_alPut_self _ _ _, alPut_ne_nil _ _ _⟩
        · obtain ⟨dct, hdct, hne⟩ := i5 r hr
          exact ⟨dct, by rw [alGet_alPut_ne _ _ _ _ hrd]; exact hdct, hne⟩
      · intro r hr
        rw [keysOf_alPut_of_mem _ (mem_keysOf_of_alGet hdct₀)] at hr
        exact i8 r hr
    | false =>
      obtain ⟨htn, hdn⟩ := (containsD_false_iff hc).mp hcd
      have hnt : p.kid ∉ keysOf st.outer.tmpdata := (alGet_eq_none_iff _ _).mp htn
      have hrfresh : st.nextRef ∉ keysOf st.heap := fun hm =>
        absurd (i8 _ hm) (by omega)
      have hrstored : st.nextRef ∉ storedRefs st := fun hm =>
        absurd (i7 _ hm) (by omega)
      have hset := setitem_pair_eq (w := w) (d := st.outer) (k := p) st.nextRef hc
      have hg₁ : getitem w (setitem w st.outer p st.nextRef).fst p =
          .ok st.nextRef := getitem_after_setitem hc (Or.inr hnt) hset
      have hheap₁ : alPut st.heap st.nextRef ([] : List (Nat × V)) =
          st.heap ++ [(st.nextRef, [])] := alPut_of_not_mem _ hrfresh
      have heq : pairSet w st p s v =
          ({ outer := (setitem w (setitem w st.outer p st.nextRef).fst p
                st.nextRef).fst,
             heap := alPut (alPut st.heap st.nextRef []) st.nextRef (alPut [] s v),
             nextRef := st.nextRef + 1 }, none) := by
        simp [pairSet, hcd, hg₁, alGet_alPut_self]
      rw [alPut_alPut_same] at heq
      have hheap₂ : alPut st.heap st.nextRef (alPut [] s v) =
          st.heap ++ [(st.nextRef, [(s, v)])] := alPut_of_not_mem _ hrfresh
      rw [hheap₂] at heq
      -- the reassignment writes back the same reference at the same place
      by_cases hs : stagingCond w st.outer p.kid
      · have ho₁ : (setitem w st.outer p st.nextRef).fst =
            { st.outer with tmpdata := alPut st.outer.tmpdata p.kid st.nextRef } := by
          rw [setitem_staging st.nextRef hc hs]
        have hs₁ : stagingCond w
            ({ st.outer with tmpdata := alPut st.outer.tmpdata p.kid st.nextRef } :
              PersistentKeysDict Nat) p.kid := hs
        have ho₂ : (setitem w (setitem w st.outer p st.nextRef).fst p
            st.nextRef).fst = (setitem w st.outer p st.nextRef).fst := by
          rw [ho₁, setitem_staging st.nextRef hc hs₁]
          show ({ st.outer with
            tmpdata := alPut (alPut st.outer.tmpdata p.kid st.nextRef) p.kid
              st.nextRef } : PersistentKeysDict Nat) = _
          rw [alPut_alPut_same]
        rw [ho₂, ho₁] at heq
        rw [heq] at h
        injection h with h _
        subst h
        have htp : alPut st.outer.tmpdata p.kid st.nextRef =
            st.outer.tmpdata ++ [(p.kid, st.nextRef)] := alPut_of_not_mem _ hnt
        have hsrX : storedRefs
            (⟨{ st.outer with tmpdata := alPut st.outer.tmpdata p.kid st.nextRef },
              st.heap ++ [(st.nextRef, [(s, v)])], st.nextRef + 1⟩ :
              PersistentPairKeysDict V) =
            valsOf st.outer.tmpdata ++ st.nextRef :: valsOf st.outer.data := by
          show valsOf (alPut st.outer.tmpdata p.kid st.nextRef) ++
            valsOf st.outer.data = _
          rw [htp, valsOf_append]
          simp [valsOf]
        refine ⟨?_, ?_, ?_, i4, ?_, ?_, ?_, ?_⟩
        · intro kid hm
          rcases (mem_keysOf_alPut _ _ _ _).mp hm with he | hm'
          · subst he
            exact hs
          · exact i1 kid hm'
        · rcases i2 with h2 | h2
          · exact Or.inl h2
          · exact Or.inr h2
        · exact nodup_keysOf_alPut _ i3
        · rw [hsrX]
          intro r hr
          by_cases hrd : r = st.nextRef
          · subst hrd
            refine ⟨[(s, v)], ?_, by simp⟩
            rw [alGet_append_right_of_not_mem _ hrfresh]
            simp [alGet]
          · have hr' : r ∈ storedRefs st := by
              rcases List.mem_append.mp hr with hr | hr
              · exact List.mem_append_left _ hr
              · rcases List.mem_cons.mp hr with he | hr
                · exact absurd he hrd
                · exact List.mem_append_right _ hr
            obtain ⟨dct, hdct, hne⟩ := i5 r hr'
            exact ⟨dct, alGet_append_left _ hdct, hne⟩
        · rw [hsrX]
          rw [List.nodup_middle]
          exact List.nodup_cons.mpr ⟨hrstored, i6⟩
        · rw [hsrX]
          intro r hr
          show r < st.nextRef + 1
          rcases List.mem_append.mp hr with hr | hr
          · have := i7 r (List.mem_append_left _ hr)
            omega
          · rcases List.mem_cons.mp hr with he | hr
            · omega
            · have := i7 r (List.mem_append_right _ hr)
              omega
        · intro r hr
          show r < st.nextRef + 1
          rw [keysOf_append] at hr
          rcases List.mem_append.mp hr with hr | hr
          · have := i8 r hr
            omega
          · simp [keysOf_cons, keysOf_nil] at hr
            omega
      · unfold stagingCond at hs
        push_neg at hs
        obtain ⟨oid, hp⟩ := Option.ne_none_iff_exists.mp hs.1
        have hj : st.outer.hasJar = true := by
          cases hje : st.outer.hasJar
          · exact absurd hje hs.2
          · rfl
        have hnd : oid ∉ keysOf st.outer.data :=
          (alGet_eq_none_iff _ _).mp (hdn oid hp.symm)
        have ho₁ : (setitem w st.outer p st.nextRef).fst =
            { st.outer with data := alPut st.outer.data oid st.nextRef } := by
          rw [setitem_persisted st.nextRef hc hp.symm hj]
        have hj₁ : ({ st.outer with data := alPut st.outer.data oid st.nextRef } :
            PersistentKeysDict Nat).hasJar = true := hj
        have ho₂ : (setitem w (setitem w st.outer p st.nextRef).fst p
            st.nextRef).fst = (setitem w st.outer p st.nextRef).fst := by
          rw [ho₁, setitem_persisted st.nextRef hc hp.symm hj₁]
          show ({ st.outer with
            data := alPut (alPut st.outer.data oid st.nextRef) oid st.nextRef } :
              PersistentKeysDict Nat) = _
          rw [alPut_alPut_same]
        rw [ho₂, ho₁] at heq
        rw [heq] at h
        injection h with h _
        subst h
        have hdp : alPut st.outer.data oid st.nextRef =
            st.outer.data ++ [(oid, st.nextRef)] := alPut_of_not_mem _ hnd
        have hsrX : storedRefs
            (⟨{ st.outer with data := alPut st.outer.data oid st.nextRef },
              st.heap ++ [(st.nextRef, [(s, v)])], st.nextRef + 1⟩ :
              PersistentPairKeysDict V) =
            storedRefs st ++ [st.nextRef] := by
          show valsOf st.outer.tmpdata ++
            valsOf (alPut st.outer.data oid st.nextRef) = _
          rw [hdp, valsOf_append]
          show valsOf st.outer.tmpdata ++
            (valsOf st.outer.data ++ [st.nextRef]) = _
          rw [storedRefs, List.append_assoc]
        refine ⟨?_, Or.inl hj, i3, ?_, ?_, ?_, ?_, ?_⟩
        · intro kid hm
          exact i1 kid hm
        · exact nodup_keysOf_alPut _ i4
        · rw [hsrX]
          intro r hr
          by_cases hrd : r = st.nextRef
          · subst hrd
            refine ⟨[(s, v)], ?_, by simp⟩
            rw [alGet_append_right_of_not_mem _ hrfresh]
            simp [alGet]
          · have hr' : r ∈ storedRefs st := by
              rcases List.mem_append.mp hr with hr | hr
              · exact hr
              · simp at hr
                exact absurd hr hrd
            obtain ⟨dct, hdct, hne⟩ := i5 r hr'
            exact ⟨dct, alGet_append_left _ hdct, hne⟩
        · rw [hsrX]
          exact List.Nodup.append i6 (by simp)
            (by simpa [List.disjoint_singleton] using hrstored)
        · rw [hsrX]
          intro r hr
          show r < st.nextRef + 1
          rcases List.mem_append.mp hr with hr | hr
          · have := i7 r hr
            omega
          · simp at hr
            omega
        · intro r hr
          show r < st.nextRef + 1
          rw [keysOf_append] at hr
          rcases List.mem_append.mp hr with hr | hr
          · have := i8 r hr
            omega
          · simp [keysOf_cons, keysOf_nil] at hr
            omega

end PersistentPairKeysDict

namespace PersistentPairKeysDict

open PersistentKeysDict

theorem InvP_pairDel {w : World} {st st' : PersistentPairKeysDict V} {p : PKey}
    {s : Nat} (hI : InvP w st) (h : pairDel w st p s = (st', none)) :
    InvP w st' := by
  obtain ⟨i1, i2, i3, i4, i5, i6, i7, i8⟩ := hI
  cases hg : getitem w st.outer p with
  | error e => simp [pairDel, hg] at h
  | ok dref =>
    have hsr := storedRef_of_getitem hg
    obtain ⟨dct, hdct, hnedct⟩ := i5 dref hsr
    have hdref_heap : dref ∈ keysOf st.heap := mem_keysOf_of_alGet hdct
    cases hds : alGet dct s with
    | none => simp [pairDel, hg, hdct, hds] at h
    | some v₀ =>
      cases hemp : (alDel dct s).isEmpty with
      | false =>
        have hre : (setitem w st.outer p dref).fst = st.outer :=
          setitem_reassign i1 i2 hg
        have heq : pairDel w st p s =
            ({ outer := st.outer, heap := alPut st.heap dref (alDel dct s),
               nextRef := st.nextRef }, none) := by
          simp [pairDel, hg, hdct, hds, hemp, hre]
        rw [heq] at h
        injection h with h _
        subst h
        refine ⟨i1, i2, i3, i4, ?_, i6, i7, ?_⟩
        · intro r hr
          by_cases hrd : r = dref
          · subst hrd
            refine ⟨alDel dct s, alGet_alPut_self _ _ _, ?_⟩
            intro hc
            rw [hc] at hemp
            simp at hemp
          · obtain ⟨dct', hdct', hne'⟩ := i5 r hr
            exact ⟨dct', by rw [alGet_alPut_ne _ _ _ _ hrd]; exact hdct', hne'⟩
        · intro r hr
          rw [keysOf_alPut_of_mem _ hdref_heap] at hr
          exact i8 r hr
      | true =>
        rcases getitem_cases hg with htc | ⟨htc, oid, hpo, hdo⟩
        · -- the primary's reference sits in the staging partition
          have hdel := delitem_tmp (w := w) (getitem_capable hg) htc
          have heq : pairDel w st p s =
              ({ outer := { st.outer with
                    tmpdata := alDel st.outer.tmpdata p.kid },
                 heap := alPut st.heap dref (alDel dct s),
                 nextRef := st.nextRef }, none) := by
            simp [pairDel, hg, hdct, hds, hemp, hdel]
          rw [heq] at h
          injection h with h _
          subst h
          obtain ⟨l₁, l₂, hsplit, hn₁, hdel₂⟩ := alGet_decomp htc
          have hmA : storedRefs st =
              valsOf l₁ ++ dref :: (valsOf l₂ ++ valsOf st.outer.data) := by
            rw [storedRefs, hsplit, valsOf_append, valsOf_cons, List.append_assoc]
            rfl
          have hnd6 := i6
          rw [hmA, List.nodup_middle, List.nodup_cons] at hnd6
          obtain ⟨hdnotin, hndrest⟩ := hnd6
          have hmB : storedRefs
              (⟨{ st.outer with tmpdata := alDel st.outer.tmpdata p.kid },
                alPut st.heap dref (alDel dct s), st.nextRef⟩ :
                PersistentPairKeysDict V) =
              valsOf l₁ ++ (valsOf l₂ ++ valsOf st.outer.data) := by
            show valsOf (alDel st.outer.tmpdata p.kid) ++ valsOf st.outer.data = _
            rw [hdel₂, valsOf_append, List.append_assoc]
          refine ⟨?_, i2, nodup_keysOf_alDel _ i3, i4, ?_, ?_, ?_, ?_⟩
          · intro kid hm
            exact i1 kid (((alDel_sublist _ _).map Prod.fst).subset hm)
          · intro r hr
            rw [hmB] at hr
            have hne : r ≠ dref := fun he => hdnotin (he ▸ hr)
            have hrold : r ∈ storedRefs st := by
              rw [hmA]
              rcases List.mem_append.mp hr with hr | hr
              · exact List.mem_append_left _ hr
              · exact List.mem_append_right _ (List.mem_cons_of_mem _ hr)
            obtain ⟨dct', hdct', hne'⟩ := i5 r hrold
            exact ⟨dct', by rw [alGet_alPut_ne _ _ _ _ hne]; exact hdct', hne'⟩
          · rw [hmB]
            exact hndrest
          · intro r hr
            show r < st.nextRef
            rw [hmB] at hr
            have hrold : r ∈ storedRefs st := by
              rw [hmA]
              rcases List.mem_append.mp hr with hr | hr
              · exact List.mem_append_left _ hr
              · exact List.mem_append_right _ (List.mem_cons_of_mem _ hr)
            exact i7 r hrold
          · intro r hr
            show r < st.nextRef
            rw [keysOf_alPut_of_mem _ hdref_heap] at hr
            exact i8 r hr
        · -- the primary's reference sits in the persisted partition
          have hdel := delitem_data (w := w) (getitem_capable hg) htc hpo hdo
          have heq : pairDel w st p s =
              ({ outer := { st.outer with data := alDel st.outer.data oid },
                 heap := alPut st.heap dref (alDel dct s),
                 nextRef := st.nextRef }, none) := by
            simp [pairDel, hg, hdct, hds, hemp, hdel]
          rw [heq] at h
          injection h with h _
          subst h
          obtain ⟨l₁, l₂, hsplit, hn₁, hdel₂⟩ := alGet_decomp hdo
          have hmA : storedRefs st =
              (valsOf st.outer.tmpdata ++ valsOf l₁) ++ dref :: valsOf l₂ := by
            rw [storedRefs, hsplit, valsOf_append, valsOf_cons,
              ← List.append_assoc]
          have hnd6 := i6
          rw [hmA, List.nodup_middle, List.nodup_cons] at hnd6
          obtain ⟨hdnotin, hndrest⟩ := hnd6
          have hmB : storedRefs
              (⟨{ st.outer with data := alDel st.outer.data oid },
                alPut st.heap dref (alDel dct s), st.nextRef⟩ :
                PersistentPairKeysDict V) =
              (valsOf st.outer.tmpdata ++ valsOf l₁) ++ valsOf l₂ := by
            show valsOf st.outer.tmpdata ++ valsOf (alDel st.outer.data oid) = _
            rw [hdel₂, valsOf_append, ← List.append_assoc]
          have hj : st.outer.hasJar = true := by
            rcases i2 with h2 | h2
            · exact h2
            · rw [h2] at hdo
              simp [alGet] at hdo
          refine ⟨?_, Or.inl hj, i3, nodup_keysOf_alDel _ i4, ?_, ?_, ?_, ?_⟩
          · intro kid hm
            exact i1 kid hm
          · intro r hr
            rw [hmB] at hr
            have hne : r ≠ dref := fun he => hdnotin (he ▸ hr)
            have hrold : r ∈ storedRefs st := by
              rw [hmA]
              rcases List.mem_append.mp hr with hr | hr
              · exact List.mem_append_left _ hr
              · exact List.mem_append_right _ (List.mem_cons_of_mem _ hr)
            obtain ⟨dct', hdct', hne'⟩ := i5 r hrold
            exact ⟨dct', by rw [alGet_alPut_ne _ _ _ _ hne]; exact hdct', hne'⟩
          · rw [hmB]
            exact hndrest
          · intro r hr
            show r < st.nextRef
            rw [hmB] at hr
            have hrold : r ∈ storedRefs st := by
              rw [hmA]
              rcases List.mem_append.mp hr with hr | hr
              · exact List.mem_append_left _ hr
              · exact List.mem_append_right _ (List.mem_cons_of_mem _ hr)
            exact i7 r hrold
          · intro r hr
            show r < st.nextRef
            rw [keysOf_alPut_of_mem _ hdref_heap] at hr
            exact i8 r hr

end PersistentPairKeysDict

namespace PersistentPairKeysDict

open PersistentKeysDict

theorem InvP_of_FReach {w : World} {st : PersistentPairKeysDict V}
    (h : FReach w st) : InvP w st := by
  induction h with
  | init b =>
    exact ⟨by simp [keysOf_nil], Or.inr rfl, by simp [keysOf_nil],
      by simp [keysOf_nil], by simp [storedRefs, valsOf_nil],
      by simp [storedRefs, valsOf_nil], by simp [storedRefs, valsOf_nil],
      by simp [keysOf_nil]⟩
  | setp st st' p s v hr heq ih => exact InvP_pairSet ih heq
  | delp st st' p s hr heq ih => exact InvP_pairDel ih heq

theorem pairDel_last_absent {w : World} {st st' : PersistentPairKeysDict V}
    {p : PKey} {s : Nat} {v : V} {dref : Nat} (hw : Wgood w) (hI : InvP w st)
    (hg : getitem w st.outer p = .ok dref)
    (hsingle : alGet st.heap dref = some [(s, v)])
    (h : pairDel w st p s = (st', none)) :
    containsD w st'.outer p = .ok false ∧ some p.kid ∉ pairPrimaries w st' := by
  obtain ⟨i1, i2, i3, i4, i5, i6, i7, i8⟩ := hI
  have hc := getitem_capable hg
  rcases getitem_cases hg with htc | ⟨htc, oid, hpo, hdo⟩
  · -- the primary's reference sits in the staging partition
    have hdel := delitem_tmp (w := w) hc htc
    have heq : pairDel w st p s =
        ({ outer := { st.outer with tmpdata := alDel st.outer.tmpdata p.kid },
           heap := alPut st.heap dref (alDel [(s, v)] s),
           nextRef := st.nextRef }, none) := by
      simp [pairDel, hg, hsingle, alGet, alDel, hdel]
    rw [heq] at h
    injection h with h _
    subst h
    have hstage : stagingCond w st.outer p.kid := i1 _ (mem_keysOf_of_alGet htc)
    constructor
    · rw [containsD_false_iff hc]
      constructor
      · rw [alGet_eq_none_iff]
        intro hm
        exact ((mem_keysOf_alDel i3).mp hm).2 rfl
      · intro oid hpoid
        rcases hstage with hnone | hnojar
        · rw [hnone] at hpoid
          exact Option.noConfusion hpoid
        · rcases i2 with h2 | h2
          · rw [hnojar] at h2
            exact Bool.noConfusion h2
          · show alGet st.outer.data oid = none
            rw [h2]
            rfl
    · rw [pairPrimaries, iterKeys_eq_keysList]
      intro hm
      rcases List.mem_append.mp hm with hm | hm
      · obtain ⟨e, he, hres⟩ := List.mem_map.mp hm
        have hatt : (p.kid, e.1) ∈ w.attached := mem_attached_of_revLookup hres
        have hpk : poidOf w p.kid = some e.1 :=
          poidOf_of_mem_attached hw.2.1 hatt
        rcases hstage with hnone | hnojar
        · rw [hnone] at hpk
          exact Option.noConfusion hpk
        · rcases i2 with h2 | h2
          · rw [hnojar] at h2
            exact Bool.noConfusion h2
          · have : e ∈ st.outer.data := he
            rw [h2] at this
            simp at this
      · obtain ⟨e, he, hres⟩ := List.mem_map.mp hm
        injection hres with hres
        have hk : e.1 ∈ keysOf (alDel st.outer.tmpdata p.kid) :=
          List.mem_map_of_mem Prod.fst he
        rw [hres] at hk
        exact ((mem_keysOf_alDel i3).mp hk).2 rfl
  · -- the primary's reference sits in the persisted partition
    have hdel := delitem_data (w := w) hc htc hpo hdo
    have heq : pairDel w st p s =
        ({ outer := { st.outer with data := alDel st.outer.data oid },
           heap := alPut st.heap dref (alDel [(s, v)] s),
           nextRef := st.nextRef }, none) := by
      simp [pairDel, hg, hsingle, alGet, alDel, hdel]
    rw [heq] at h
    injection h with h _
    subst h
    constructor
    · rw [containsD_false_iff hc]
      refine ⟨htc, ?_⟩
      intro oid' hpoid
      rw [hpo] at hpoid
      injection hpoid with hpoid
      subst hpoid
      rw [alGet_eq_none_iff]
      intro hmem
      exact ((mem_keysOf_alDel i4).mp hmem).2 rfl
    · rw [pairPrimaries, iterKeys_eq_keysList]
      intro hm
      rcases List.mem_append.mp hm with hm | hm
      · obtain ⟨e, he, hres⟩ := List.mem_map.mp hm
        have hatt : (p.kid, e.1) ∈ w.attached := mem_attached_of_revLookup hres
        have hpk : poidOf w p.kid = some e.1 :=
          poidOf_of_mem_attached hw.2.1 hatt
        rw [hpo] at hpk
        injection hpk with hpk
        have hoid : e.1 ∈ keysOf (alDel st.outer.data oid) :=
          List.mem_map_of_mem Prod.fst he
        rw [← hpk] at hoid
        exact ((mem_keysOf_alDel i4).mp hoid).2 rfl
      · obtain ⟨e, he, hres⟩ := List.mem_map.mp hm
        injection hres with hres
        have hk : e.1 ∈ keysOf st.outer.tmpdata :=
          List.mem_map_of_mem Prod.fst he
        rw [hres] at hk
        exact ((alGet_eq_none_iff _ _).mp htc) hk

end PersistentPairKeysDict

/-- C5 (amended): under one fixed connection state (no primary or
container changes attachment between operations), in every state of the
pair store reachable by successful `__setitem__`/`__delitem__` calls,
every stored inner-dict reference points to a non-empty dict; and when a
`__delitem__` removes the last secondary entry of a primary (its inner
dict was the singleton for that secondary), the primary is afterwards
absent from the outer store and from the iterated primaries. -/
theorem C5_pair_invariant (V : Type) (w : World) (hw : Wgood w) :
    (∀ st : PersistentPairKeysDict V, FReach w st →
      ∀ r ∈ PersistentPairKeysDict.storedRefs st,
        ∃ dct, alGet st.heap r = some dct ∧ dct ≠ []) ∧
    (∀ (st st' : PersistentPairKeysDict V) (p : PKey) (s : Nat) (v : V)
        (dref : Nat),
      FReach w st → getitem w st.outer p = .ok dref →
      alGet st.heap dref = some [(s, v)] →
      PersistentPairKeysDict.pairDel w st p s = (st', none) →
      containsD w st'.outer p = .ok false ∧
        some p.kid ∉ PersistentPairKeysDict.pairPrimaries w st') := by
  constructor
  · intro st hr
    exact (PersistentPairKeysDict.InvP_of_FReach hr).2.2.2.2.1
  · intro st st' p s v dref hr hg hsingle h
    exact PersistentPairKeysDict.pairDel_last_absent hw
      (PersistentPairKeysDict.InvP_of_FReach hr) hg hsingle h

/-- Witness for C5 (amended): one primary with one secondary entry added
from the empty store under the empty connection, then deleted; the stored
reference is non-empty before, and the primary is gone afterwards. -/
theorem C5_pair_invariant_witness :
    (∀ r ∈ PersistentPairKeysDict.storedRefs
        (⟨⟨[(1, 0)], [], true⟩, [(0, [(10, 5)])], 1⟩ :
          PersistentPairKeysDict Nat),
      ∃ dct, alGet [((0 : Nat), [((10 : Nat), (5 : Nat))])] r = some dct ∧
        dct ≠ []) ∧
    (containsD ⟨[], 0⟩
        (⟨⟨[], [], true⟩, [(0, [])], 1⟩ :
          PersistentPairKeysDict Nat).outer ⟨1, true⟩ = .ok false ∧
      some 1 ∉ PersistentPairKeysDict.pairPrimaries ⟨[], 0⟩
        (⟨⟨[], [], true⟩, [(0, [])], 1⟩ : PersistentPairKeysDict Nat)) := by
  have hr : FReach (⟨[], 0⟩ : World)
      (⟨⟨[(1, 0)], [], true⟩, [(0, [(10, 5)])], 1⟩ :
        PersistentPairKeysDict Nat) :=
    FReach.setp _ _ ⟨1, true⟩ 10 5 (FReach.init true) (by decide)
  exact ⟨(C5_pair_invariant Nat ⟨[], 0⟩ (by decide)).1 _ hr,
    (C5_pair_invariant Nat ⟨[], 0⟩ (by decide)).2 _ _ ⟨1, true⟩ 10 5 0 hr
      (by decide) (by decide) (by decide)⟩
